import Mathlib

/-!
The package `directory_tree`: a shallow embedding of `directory_tree.go`.

The Go package builds a parent-linked tree of `*Node` from the entries that
`filepath.Walk` reports, and answers `GetFiles` queries on it.

Modelling decisions.

* Nodes live in a heap, a `List Node`; a `*Node` is an index into it, and
  `&Node{...}` allocates at the end of the heap.  `Parent` is `Option Nat`
  (`none` is Go's `nil`), `Children` is a `List Nat`.
* `map[string]*Node` is an association list with unique keys; `parents[k] = v`
  is `mapSet`, `parents[k]` is `mapGet`.
* The order in which `for path, node := range parents` visits the map is not
  fixed by Go; it is the `range` component of `OS`, and theorems assume only
  that it enumerates the map (it is a permutation of it).
* `filepath.Abs` and `filepath.Walk` are services of the operating system; they
  are the `Abs` and `Walk` components of `OS`.  `Walk` gives the sequence of
  calls that `filepath.Walk` makes to its callback.
* `filepath.Dir` and `filepath.Ext` of Go's standard library are modelled for
  Unix (separator `/`, no volume name), strings being lists of characters.
* `Info *FileInfo` is held by value: `NewTree` allocates one `FileInfo` per
  node and nothing writes to it afterwards.
* `GetFiles` recurses through pointers and need not terminate on a cyclic
  heap; it takes fuel and returns `none` when the fuel runs out.  It reads the
  heap only; `GetFilesSt` is the same method with the heap passed through every
  step, for the properties that speak of what a call leaves behind.
-/

set_option autoImplicit false

namespace DirectoryTree

/-! ## Go's `path/filepath`, Unix flavour -/

/-- Go's `os.IsPathSeparator` on Unix. -/
def IsPathSeparator (c : Char) : Bool := c == '/'

/-- The backtracking of `filepath.Clean` on a `..` element.  The buffer is held
reversed (last written character first): `out.w--`, then
`for out.w > dotdot && !os.IsPathSeparator(out.index(out.w)) { out.w-- }`. -/
def cleanBacktrack (dotdot : Nat) : List Char → List Char
  | [] => []
  | c :: rest =>
    if dotdot < rest.length ∧ IsPathSeparator c = false then cleanBacktrack dotdot rest else rest

/-- The copy loop of `filepath.Clean` for a real path element:
`for ; r < n && !os.IsPathSeparator(path[r]); r++ { out.append(path[r]) }`.
Returns the unread input and the (reversed) buffer. -/
def cleanCopy : List Char → List Char → List Char × List Char
  | [], out => ([], out)
  | c :: rest, out => if IsPathSeparator c then (c :: rest, out) else cleanCopy rest (c :: out)

/-- The main loop `for r < n { switch ... }` of `filepath.Clean`; `path` is the
unread input `path[r:]`, `out` the reversed buffer (`out.w` is its length).
Every iteration consumes at least one character, so `fuel = len(path) + 1`
suffices. -/
def cleanLoop (rooted : Bool) : Nat → List Char → List Char → Nat → List Char
  | 0, _, out, _ => out
  | _ + 1, [], out, _ => out
  | fuel + 1, c :: rest, out, dotdot =>
    if IsPathSeparator c then
      -- empty path element
      cleanLoop rooted fuel rest out dotdot
    else if c = '.' ∧ (rest = [] ∨ (rest.head?.map IsPathSeparator) = some true) then
      -- . element
      cleanLoop rooted fuel rest out dotdot
    else if c = '.' ∧ rest.head? = some '.' ∧
        (rest.tail = [] ∨ (rest.tail.head?.map IsPathSeparator) = some true) then
      -- .. element: remove to last separator
      if dotdot < out.length then
        cleanLoop rooted fuel rest.tail (cleanBacktrack dotdot out) dotdot
      else if rooted = false then
        let out1 := if 0 < out.length then '/' :: out else out
        let out2 := '.' :: '.' :: out1
        cleanLoop rooted fuel rest.tail out2 out2.length
      else
        cleanLoop rooted fuel rest.tail out dotdot
    else
      -- real path element: add slash if needed, copy element
      let out1 := if (rooted ∧ out.length ≠ 1) ∨ (rooted = false ∧ out.length ≠ 0)
        then '/' :: out else out
      let (rest1, out2) := cleanCopy (c :: rest) out1
      cleanLoop rooted fuel rest1 out2 dotdot

/-- Go's `filepath.Clean` on Unix. -/
def filepathClean (path : List Char) : List Char :=
  match path with
  | [] => ['.']
  | c :: _ =>
    let rooted := IsPathSeparator c
    let out := if rooted then
        cleanLoop rooted (path.length + 1) path.tail ['/'] 1
      else
        cleanLoop rooted (path.length + 1) path [] 0
    if out.length = 0 then ['.'] else out.reverse

/-- Go's `filepath.Dir` on Unix: everything up to and including the last
separator, cleaned. -/
def Dir (path : String) : String :=
  String.mk (filepathClean (path.data.reverse.dropWhile (fun c => !IsPathSeparator c)).reverse)

/-- The backward scan of `filepath.Ext`; the input is the reversed name, `acc`
the characters already passed. -/
def extScan : List Char → List Char → List Char
  | [], _ => []
  | c :: rest, acc =>
    if IsPathSeparator c then [] else if c = '.' then c :: acc else extScan rest (c :: acc)

/-- Go's `filepath.Ext`: the suffix beginning at the last dot of the last path
element, empty if there is no dot. -/
def Ext (path : String) : String := String.mk (extScan path.data.reverse [])

/-! ## Data model -/

/-- Go's `error` values, as far as the program handles them: it only passes
them on. -/
abbrev Error := String

/-- The `os.FileInfo` interface, as far as `fileInfoFromInterface` reads it. -/
structure OsFileInfo where
  Name : String
  Size : Int
  Mode : Nat
  ModTime : Int
  IsDir : Bool
deriving DecidableEq

/-- The struct `FileInfo`. -/
structure FileInfo where
  Name : String
  Size : Int
  Mode : Nat
  ModTime : Int
  IsDir : Bool
  Ext : String
deriving DecidableEq

/-- The function `fileInfoFromInterface`. -/
def fileInfoFromInterface (v : OsFileInfo) : FileInfo :=
  { Name := v.Name, Size := v.Size, Mode := v.Mode, ModTime := v.ModTime, IsDir := v.IsDir,
    Ext := Ext v.Name }

/-- The struct `Node`; pointers to nodes are heap indices. -/
structure Node where
  FullPath : String
  Info : FileInfo
  Children : List Nat
  Parent : Option Nat
deriving DecidableEq

/-- The lookup `parents[k]` with the comma-ok idiom. -/
def mapGet (m : List (String × Nat)) (k : String) : Option Nat :=
  match m with
  | [] => none
  | e :: rest => if e.1 = k then some e.2 else mapGet rest k

/-- The assignment `parents[k] = v`: overwrite the entry of `k` if there is one, else add it. -/
def mapSet (m : List (String × Nat)) (k : String) (v : Nat) : List (String × Nat) :=
  match m with
  | [] => [(k, v)]
  | e :: rest => if e.1 = k then (k, v) :: rest else e :: mapSet rest k v

/-- One call of `filepath.Walk` to its callback: `fn(path, info, nil)` or
`fn(path, _, err)` with `err != nil`. -/
inductive WalkCall where
  | visit (path : String) (info : OsFileInfo)
  | fault (path : String) (err : Error)
deriving DecidableEq

/-- What `NewTree` has allocated so far: the heap and the map `parents`. -/
structure Build where
  heap : List Node
  parents : List (String × Nat)
deriving DecidableEq

/-- The closure `walkFunc` of `NewTree`. -/
def walkFunc (st : Build) (c : WalkCall) : Build × Option Error :=
  match c with
  | .fault _ err => (st, some err)
  | .visit path info =>
    ({ heap := st.heap ++
          [{ FullPath := path, Info := fileInfoFromInterface info, Children := [], Parent := none }],
       parents := mapSet st.parents path st.heap.length }, none)

/-- Go's `filepath.Walk` driving the callback: it stops at the first call for which
the callback returns an error and returns that error. -/
def filepathWalk : List WalkCall → Build → Build × Option Error
  | [], st => (st, none)
  | c :: rest, st =>
    match walkFunc st c with
    | (st1, none) => filepathWalk rest st1
    | (st1, some e) => (st1, some e)

/-- The assignment `node.Parent = parent`. -/
def setParent (heap : List Node) (node parent : Nat) : List Node :=
  heap.modify (fun nd => { nd with Parent := some parent }) node

/-- The assignment `parent.Children = append(parent.Children, node)`. -/
def appendChild (heap : List Node) (parent node : Nat) : List Node :=
  heap.modify (fun nd => { nd with Children := nd.Children ++ [node] }) parent

/-- The body of the link loop of `NewTree`, for one `path, node` of the map.
The state is the heap and the variable `result`. -/
def linkStep (parents : List (String × Nat)) (st : List Node × Option Nat) (e : String × Nat) :
    List Node × Option Nat :=
  let parentPath := Dir e.1
  match mapGet parents parentPath with
  | none => (st.1, some e.2)
  | some parent => (appendChild (setParent st.1 e.2 parent) parent e.2, st.2)

/-- The operating system as `NewTree` sees it. -/
structure OS where
  /-- Go's `filepath.Abs`. -/
  Abs : String → Except Error String
  /-- The calls `filepath.Walk(absRoot, fn)` makes to `fn`, in order. -/
  Walk : String → List WalkCall
  /-- The order in which `range` enumerates a map. -/
  range : List (String × Nat) → List (String × Nat)

/-- What a call of `NewTree` leaves behind: the heap and the two results. -/
structure Outcome where
  heap : List Node
  result : Option Nat
  err : Option Error
deriving DecidableEq

/-- The function `NewTree`. -/
def NewTree (os : OS) (root : String) : Outcome :=
  match os.Abs root with
  | .error e => { heap := [], result := none, err := some e }
  | .ok absRoot =>
    match filepathWalk (os.Walk absRoot) { heap := [], parents := [] } with
    | (st, some e) => { heap := st.heap, result := none, err := some e }
    | (st, none) =>
      let linked := (os.range st.parents).foldl (linkStep st.parents) (st.heap, none)
      { heap := linked.1, result := linked.2, err := none }

/-- The loop `for _, child := range n.Children` of `GetFiles`; `files` is the
slice built so far and `recur` the recursive call `child.GetFiles(ext)`. -/
def getFilesLoop (heap : List Node) (recur : Nat → Option (List Nat)) (ext : String) :
    List Nat → List Nat → Option (List Nat)
  | [], files => some files
  | child :: rest, files =>
    match heap[child]? with
    | none => none
    | some c =>
      if c.Info.IsDir then
        match recur child with
        | none => none
        | some sub => getFilesLoop heap recur ext rest (files ++ sub)
      else if ext = "" ∨ ext = c.Info.Ext then
        getFilesLoop heap recur ext rest (files ++ [child])
      else
        getFilesLoop heap recur ext rest files

/-- The method `GetFiles`, with fuel bounding the depth of the recursion;
`none` when the fuel runs out or a pointer dangles. -/
def GetFiles (heap : List Node) : Nat → Nat → String → Option (List Nat)
  | 0, _, _ => none
  | fuel + 1, n, ext =>
    match heap[n]? with
    | none => none
    | some nd => getFilesLoop heap (fun child => GetFiles heap fuel child ext) ext nd.Children []

end DirectoryTree


/-! ## Notions used to state the properties -/

namespace DirectoryTree

/-- What holds of heap and map while `filepath.Walk` runs: the keys of the map
are distinct, every entry points to a node carrying its key as `FullPath`, and
no node is linked yet. -/
structure WalkInv (st : Build) : Prop where
  keys : (st.parents.map Prod.fst).Nodup
  pathOf : ∀ e ∈ st.parents, ∃ nd : Node, st.heap[e.2]? = some nd ∧ nd.FullPath = e.1
  blank : ∀ (i : Nat) (nd : Node), st.heap[i]? = some nd → nd.Children = [] ∧ nd.Parent = none

/-- The calls of a walk on which nothing fails, from the entries it reports. -/
def visits (es : List (String × OsFileInfo)) : List WalkCall :=
  es.map (fun e => WalkCall.visit e.1 e.2)

/-- The nodes that the link loop, visiting the entries `L` of the map `M`,
appends to the children of node `i`, in the order of appending. -/
def kids (M L : List (String × Nat)) (i : Nat) : List Nat :=
  (L.filter (fun e => decide (mapGet M (Dir e.1) = some i))).map Prod.snd

/-- The `Parent` field of node `i` after the link loop has visited the entries
`L` of the map `M`, when it was `p0` before. -/
def par (M L : List (String × Nat)) (i : Nat) (p0 : Option Nat) : Option Nat :=
  L.foldl (fun acc e =>
    if e.2 = i then (match mapGet M (Dir e.1) with
      | some p => some p
      | none => acc) else acc) p0

/-- The paths reported by a walk of the root path `R`: each once, `R` among
them, every other one with its parent directory among them, and every one
`R` itself or a descendant of `R` (taking parent directories leads to `R`). -/
structure IsWalkOf (R : String) (paths : List String) : Prop where
  once : paths.Nodup
  root : R ∈ paths
  closed : ∀ p ∈ paths, p ≠ R → Dir p ∈ paths
  below : ∀ p ∈ paths, ∃ k : Nat, Dir^[k] p = R

/-- Node `c` is one of the `Children` of node `m`. -/
def IsChild (heap : List Node) (m c : Nat) : Prop :=
  ∃ md : Node, heap[m]? = some md ∧ c ∈ md.Children

/-- Node `n` is reached from node `m` by following `Children` edges, zero or
more of them. -/
def Reach (heap : List Node) : Nat → Nat → Prop :=
  Relation.ReflTransGen (IsChild heap)

/-- Follow `Parent` edges `k` times from node `n`; `none` if a node on the way
has no parent. -/
def climb (heap : List Node) : Nat → Nat → Option Nat
  | 0, n => some n
  | k + 1, n =>
    match heap[n]? with
    | none => none
    | some nd =>
      match nd.Parent with
      | none => none
      | some p => climb heap k p

/-- The heap `H` that the link loop leaves for a walk of `R` with the given
paths and map `M`, when node `r` is the one of `R` and `R` has no parent
entry. -/
structure Linked (R : String) (paths : List String) (M : List (String × Nat))
    (H : List Node) (r : Nat) : Prop where
  keysNodup : (M.map Prod.fst).Nodup
  keys : ∀ k, k ∈ M.map Prod.fst ↔ k ∈ paths
  node : ∀ e ∈ M, ∃ nd : Node, H[e.2]? = some nd ∧ nd.FullPath = e.1 ∧
    nd.Parent = mapGet M (Dir e.1) ∧
    ∀ c, c ∈ nd.Children ↔ ∃ k, (k, c) ∈ M ∧ mapGet M (Dir k) = some e.2
  full : ∀ (i : Nat) (nd : Node), H[i]? = some nd → (nd.FullPath, i) ∈ M
  rootEntry : (R, r) ∈ M
  rootOrphan : mapGet M (Dir R) = none

/-- Node `d` is a proper descendant of node `n`: it is reached from `n` by
following one or more `Children` edges. -/
def Desc (heap : List Node) : Nat → Nat → Prop :=
  Relation.TransGen (IsChild heap)

/-- The `Children` edges of the heap form trees: every child pointer is a node
of the heap, `rank` decreases along every edge (so no node is its own
descendant), and no node occurs twice among all the `Children` sequences (a
node is the child of at most one node, once). -/
structure IsTreeHeap (heap : List Node) (rank : Nat → Nat) : Prop where
  valid : ∀ m c, IsChild heap m c → c < heap.length
  ranked : ∀ m c, IsChild heap m c → rank c < rank m
  unshared : ((heap.map Node.Children).flatten).Nodup

/-- Only directory nodes have children. -/
def FilesAreLeaves (heap : List Node) : Prop :=
  ∀ (m : Nat) (md : Node), heap[m]? = some md → md.Info.IsDir = false → md.Children = []

/-- What one child `c` puts into the result of `GetFiles` with filter `ext`:
the files `sub c` of its subtree if it is a directory, itself if it is a
non-directory that passes the filter, nothing otherwise. -/
def contribution (heap : List Node) (ext : String) (sub : Nat → List Nat) (c : Nat) :
    List Nat :=
  match heap[c]? with
  | none => []
  | some cd =>
    if cd.Info.IsDir then sub c
    else if ext = "" ∨ ext = cd.Info.Ext then [c]
    else []

/-- Node `d` has extension `ext`. -/
def hasExt (heap : List Node) (ext : String) (d : Nat) : Bool :=
  match heap[d]? with
  | none => false
  | some dd => decide (dd.Info.Ext = ext)

/-- Node `d` is a non-directory that passes the filter `ext`. -/
def IsFileFor (heap : List Node) (ext : String) (d : Nat) : Prop :=
  ∃ dd : Node, heap[d]? = some dd ∧ dd.Info.IsDir = false ∧ (ext = "" ∨ ext = dd.Info.Ext)

/-! ## Concrete runs -/

/-- An `os.FileInfo` of a directory. -/
def dirEntry (name : String) : OsFileInfo :=
  { Name := name, Size := 4096, Mode := 493, ModTime := 0, IsDir := true }

/-- An `os.FileInfo` of a regular file. -/
def fileEntry (name : String) : OsFileInfo :=
  { Name := name, Size := 12, Mode := 420, ModTime := 0, IsDir := false }

/-- The entries of the walk of `/root` with a file `a.txt` and a directory
`sub` holding a file `b.go`. -/
def scenarioEntries : List (String × OsFileInfo) :=
  [("/root", dirEntry "root"), ("/root/a.txt", fileEntry "a.txt"),
   ("/root/sub", dirEntry "sub"), ("/root/sub/b.go", fileEntry "b.go")]

/-- A system on which `/root` is walked as `scenarioEntries` and a map is
enumerated from its last entry to its first. -/
def scenarioOS : OS :=
  { Abs := fun p => .ok p
    Walk := fun _ => visits scenarioEntries
    range := List.reverse }

/-- The heap that `NewTree` leaves for the scenario: node 0 is `/root`, node 1
`/root/a.txt`, node 2 `/root/sub`, node 3 `/root/sub/b.go`. -/
def scenarioHeap : List Node := (NewTree scenarioOS "/root").heap

/-- A rank for the heap of the scenario: the height of each node. -/
def scenarioRank (n : Nat) : Nat :=
  if n = 0 then 2 else if n = 2 then 1 else 0

/-- The entries of the walk of the filesystem root `/` holding one file `a`. -/
def slashEntries : List (String × OsFileInfo) :=
  [("/", dirEntry "/"), ("/a", fileEntry "a")]

/-- A system on which `/` is walked as `slashEntries`. -/
def slashOS : OS :=
  { Abs := fun p => .ok p
    Walk := fun _ => visits slashEntries
    range := id }

/-! ## Notions for the later properties -/

/-- The node that `walkFunc` allocates for an entry of the walk. -/
def newNode (e : String × OsFileInfo) : Node :=
  { FullPath := e.1, Info := fileInfoFromInterface e.2, Children := [], Parent := none }

/-- The map after a walk that reports the given paths, each once, when the
heap held `n` nodes before: the path number `i` is the key of node `n + i`. -/
def keysFrom (n : Nat) : List String → List (String × Nat)
  | [] => []
  | p :: ps => (p, n) :: keysFrom (n + 1) ps

/-- The entry `e` of the map `M` has no entry for its parent directory:
the test `!exists` of the link loop. -/
def parentless (M : List (String × Nat)) (e : String × Nat) : Bool :=
  decide (mapGet M (Dir e.1) = none)

/-- The children of every node are stored in walk-discovery order.  Node `i`
is the node of entry number `i` of the walk, so this says that every
`Children` sequence is increasing. -/
def InWalkOrder (heap : List Node) : Prop :=
  ∀ (m : Nat) (md : Node), heap[m]? = some md → md.Children.Pairwise (fun a b => a < b)

/-- The loop of `GetFiles` with the heap passed along: every step returns the
heap it leaves behind.  The source assigns to no field of a node here, so no
step changes the heap it is given. -/
def getFilesLoopSt (recur : List Node → Nat → Option (List Node × List Nat)) (ext : String) :
    List Node → List Nat → List Nat → Option (List Node × List Nat)
  | heap, [], files => some (heap, files)
  | heap, child :: rest, files =>
    match heap[child]? with
    | none => none
    | some c =>
      if c.Info.IsDir then
        match recur heap child with
        | none => none
        | some (heap1, sub) => getFilesLoopSt recur ext heap1 rest (files ++ sub)
      else if ext = "" ∨ ext = c.Info.Ext then
        getFilesLoopSt recur ext heap rest (files ++ [child])
      else
        getFilesLoopSt recur ext heap rest files

/-- The method `GetFiles` as a state transformer: the heap after the call
and the slice returned. -/
def GetFilesSt : Nat → List Node → Nat → String → Option (List Node × List Nat)
  | 0, _, _, _ => none
  | fuel + 1, heap, n, ext =>
    match heap[n]? with
    | none => none
    | some nd => getFilesLoopSt (fun h child => GetFilesSt fuel h child ext) ext heap nd.Children []

/-- A system on which the walk of `/root` reports `/root` and `/root/a.txt` and
then a permission failure on `/root/sub`. -/
def deniedOS : OS :=
  { Abs := fun p => .ok p
    Walk := fun _ =>
      [WalkCall.visit "/root" (dirEntry "root"), WalkCall.visit "/root/a.txt" (fileEntry "a.txt"),
       WalkCall.fault "/root/sub" "permission denied",
       WalkCall.visit "/root/sub/b.go" (fileEntry "b.go")]
    range := id }

/-- Entries that do not come from the walk of one root: two files whose parent
directories are not reported. -/
def twoRootEntries : List (String × OsFileInfo) :=
  [("/x/a", fileEntry "a"), ("/y/b", fileEntry "b")]

/-- A system that reports `twoRootEntries` and enumerates a map in insertion
order. -/
def twoRootOS : OS :=
  { Abs := fun p => .ok p
    Walk := fun _ => visits twoRootEntries
    range := id }

end DirectoryTree

namespace DirectoryTree

/-! ## The map `parents` -/

theorem mapGet_eq_none_iff (m : List (String × Nat)) (k : String) :
    mapGet m k = none ↔ k ∉ m.map Prod.fst := by
  induction m with
  | nil => simp [mapGet]
  | cons e rest ih =>
    unfold mapGet
    by_cases h : e.1 = k
    · simp [h]
    · simp only [h, if_false, ih, List.map_cons, List.mem_cons, not_or]
      exact ⟨fun hk => ⟨fun hke => h hke.symm, hk⟩, fun hk => hk.2⟩

theorem mem_of_mapGet {m : List (String × Nat)} {k : String} {v : Nat}
    (h : mapGet m k = some v) : (k, v) ∈ m := by
  induction m with
  | nil => simp [mapGet] at h
  | cons e rest ih =>
    unfold mapGet at h
    by_cases hk : e.1 = k
    · simp only [hk, if_true, Option.some.injEq] at h
      exact List.mem_cons.2 (Or.inl (by rw [← hk, ← h]))
    · simp only [hk, if_false] at h
      exact List.mem_cons_of_mem _ (ih h)

theorem mapGet_of_mem {m : List (String × Nat)} {k : String} {v : Nat}
    (hnd : (m.map Prod.fst).Nodup) (h : (k, v) ∈ m) : mapGet m k = some v := by
  induction m with
  | nil => simp at h
  | cons e rest ih =>
    rw [List.map_cons, List.nodup_cons] at hnd
    unfold mapGet
    rcases List.mem_cons.1 h with h | h
    · simp [← h]
    · have hne : e.1 ≠ k := by
        intro hek
        exact hnd.1 (hek ▸ List.mem_map_of_mem Prod.fst h)
      simp only [hne, if_false]
      exact ih hnd.2 h

theorem mem_keys_mapSet (m : List (String × Nat)) (k : String) (v : Nat) (a : String) :
    a ∈ (mapSet m k v).map Prod.fst ↔ a = k ∨ a ∈ m.map Prod.fst := by
  induction m with
  | nil => simp [mapSet]
  | cons e rest ih =>
    unfold mapSet
    by_cases h : e.1 = k
    · simp only [h, if_true, List.map_cons, List.mem_cons]
      tauto
    · simp only [h, if_false, List.map_cons, List.mem_cons, ih]
      tauto

theorem nodup_keys_mapSet (m : List (String × Nat)) (k : String) (v : Nat)
    (hnd : (m.map Prod.fst).Nodup) : ((mapSet m k v).map Prod.fst).Nodup := by
  induction m with
  | nil => simp [mapSet]
  | cons e rest ih =>
    rw [List.map_cons, List.nodup_cons] at hnd
    unfold mapSet
    by_cases h : e.1 = k
    · simp only [h, if_true, List.map_cons, List.nodup_cons]
      exact ⟨h ▸ hnd.1, hnd.2⟩
    · simp only [h, if_false, List.map_cons, List.nodup_cons]
      refine ⟨fun hc => ?_, ih hnd.2⟩
      rcases (mem_keys_mapSet _ _ _ _).1 hc with hc | hc
      · exact h hc
      · exact hnd.1 hc

theorem mem_mapSet {m : List (String × Nat)} {k : String} {v : Nat} {e : String × Nat}
    (h : e ∈ mapSet m k v) : e = (k, v) ∨ e ∈ m := by
  induction m with
  | nil => simpa [mapSet] using h
  | cons e0 rest ih =>
    unfold mapSet at h
    by_cases hk : e0.1 = k
    · simp only [hk, if_true, List.mem_cons] at h
      rcases h with h | h
      · exact Or.inl h
      · exact Or.inr (List.mem_cons_of_mem _ h)
    · simp only [hk, if_false, List.mem_cons] at h
      rcases h with h | h
      · exact Or.inr (h ▸ List.mem_cons_self _ _)
      · exact (ih h).imp id (List.mem_cons_of_mem _)

theorem mapSet_of_not_mem {m : List (String × Nat)} {k : String} (v : Nat)
    (h : k ∉ m.map Prod.fst) : mapSet m k v = m ++ [(k, v)] := by
  induction m with
  | nil => simp [mapSet]
  | cons e rest ih =>
    rw [List.map_cons, List.mem_cons, not_or] at h
    unfold mapSet
    have hne : e.1 ≠ k := fun hek => h.1 hek.symm
    simp only [hne, if_false, ih h.2, List.cons_append]

/-! ## The walk -/

theorem walkInv_empty : WalkInv { heap := [], parents := [] } :=
  ⟨by simp, by simp, by simp⟩

theorem walkInv_walkFunc {st : Build} (h : WalkInv st) (c : WalkCall) :
    WalkInv (walkFunc st c).1 := by
  cases c with
  | fault p e => exact h
  | visit path info =>
    refine ⟨nodup_keys_mapSet _ _ _ h.keys, ?_, ?_⟩
    · intro e he
      rcases mem_mapSet he with rfl | he
      · exact ⟨Node.mk path (fileInfoFromInterface info) [] none,
          by simp [DirectoryTree.walkFunc], rfl⟩
      · obtain ⟨nd, hnd, hp⟩ := h.pathOf e he
        refine ⟨nd, ?_, hp⟩
        have hlt : e.2 < st.heap.length := by
          by_contra hge
          rw [List.getElem?_eq_none (Nat.le_of_not_lt hge)] at hnd
          cases hnd
        show (st.heap ++ _)[e.2]? = some nd
        rw [List.getElem?_append_left hlt]
        exact hnd
    · intro i nd hi
      change (st.heap ++ _)[i]? = some nd at hi
      by_cases hlt : i < st.heap.length
      · rw [List.getElem?_append_left hlt] at hi
        exact h.blank i nd hi
      · rw [List.getElem?_append_right (Nat.le_of_not_lt hlt)] at hi
        cases hsub : i - st.heap.length with
        | zero =>
          rw [hsub] at hi
          simp only [List.getElem?_cons_zero, Option.some.injEq] at hi
          subst hi
          exact ⟨rfl, rfl⟩
        | succ j =>
          rw [hsub] at hi
          simp at hi

theorem walkInv_filepathWalk (calls : List WalkCall) {st : Build} (h : WalkInv st) :
    WalkInv (filepathWalk calls st).1 := by
  induction calls generalizing st with
  | nil => exact h
  | cons c rest ih =>
    unfold DirectoryTree.filepathWalk
    have hc := walkInv_walkFunc h c
    rcases hw : DirectoryTree.walkFunc st c with ⟨st1, _ | e⟩
    · rw [hw] at hc
      exact ih hc
    · rw [hw] at hc
      exact hc

end DirectoryTree

namespace DirectoryTree

/-! ## The link loop -/

theorem linkStep_get (M : List (String × Nat)) (H : List Node) (res : Option Nat)
    (e : String × Nat) (i : Nat) :
    (linkStep M (H, res) e).1[i]? = (H[i]?).map (fun nd =>
      { nd with
        Children := nd.Children ++ kids M [e] i
        Parent := par M [e] i nd.Parent }) := by
  cases hg : mapGet M (Dir e.1) with
  | none =>
    simp only [linkStep, hg]
    cases hi : H[i]? with
    | none => simp
    | some nd => simp [kids, par, hg]
  | some p =>
    simp only [linkStep, hg, appendChild, setParent, List.getElem?_modify]
    cases hi : H[i]? with
    | none => simp
    | some nd =>
      by_cases hp : p = i <;> by_cases he : e.2 = i <;>
        simp [kids, par, hg, hp, he]

theorem kids_cons (M : List (String × Nat)) (e : String × Nat) (t : List (String × Nat))
    (i : Nat) : kids M (e :: t) i = kids M [e] i ++ kids M t i := by
  unfold kids
  rw [← List.map_append, ← List.filter_append]
  rfl

theorem par_cons (M : List (String × Nat)) (e : String × Nat) (t : List (String × Nat))
    (i : Nat) (p0 : Option Nat) : par M (e :: t) i p0 = par M t i (par M [e] i p0) := by
  simp [par]

theorem linkLoop_get (M : List (String × Nat)) (L : List (String × Nat)) :
    ∀ (H : List Node) (res : Option Nat) (i : Nat),
    (L.foldl (linkStep M) (H, res)).1[i]? = (H[i]?).map (fun nd =>
      { nd with
        Children := nd.Children ++ kids M L i
        Parent := par M L i nd.Parent }) := by
  induction L with
  | nil =>
    intro H res i
    cases hi : H[i]? with
    | none => simp [hi]
    | some nd => simp [hi, kids, par]
  | cons e t ih =>
    intro H res i
    rw [List.foldl_cons]
    rw [show linkStep M (H, res) e = ((linkStep M (H, res) e).1, (linkStep M (H, res) e).2) from rfl]
    rw [ih, linkStep_get]
    cases hi : H[i]? with
    | none => simp
    | some nd =>
      simp only [Option.map_some', kids_cons M e t, par_cons M e t, List.append_assoc]

end DirectoryTree

namespace DirectoryTree

theorem par_of_not_mem (M L : List (String × Nat)) (i : Nat) (p0 : Option Nat)
    (h : i ∉ L.map Prod.snd) : par M L i p0 = p0 := by
  induction L generalizing p0 with
  | nil => rfl
  | cons e t ih =>
    rw [List.map_cons, List.mem_cons, not_or] at h
    rw [par_cons, ih _ h.2]
    have hne : e.2 ≠ i := fun he => h.1 he.symm
    simp [par, hne]

theorem par_of_mem (M L : List (String × Nat)) (k : String) (i : Nat)
    (hnd : (L.map Prod.snd).Nodup) (h : (k, i) ∈ L) :
    par M L i none = mapGet M (Dir k) := by
  induction L with
  | nil => simp at h
  | cons e t ih =>
    rw [List.map_cons, List.nodup_cons] at hnd
    rw [par_cons]
    rcases List.mem_cons.1 h with h | h
    · subst h
      rw [par_of_not_mem _ _ _ _ hnd.1]
      cases hg : mapGet M (Dir k) <;> simp [par, hg]
    · have hne : e.2 ≠ i := by
        intro he
        exact hnd.1 (he ▸ List.mem_map_of_mem Prod.snd h)
      have h1 : par M [e] i none = none := by simp [par, hne]
      rw [h1]
      exact ih hnd.2 h

theorem mem_kids (M L : List (String × Nat)) (i n : Nat) :
    n ∈ kids M L i ↔ ∃ k, (k, n) ∈ L ∧ mapGet M (Dir k) = some i := by
  unfold kids
  simp only [List.mem_map, List.mem_filter, decide_eq_true_eq]
  constructor
  · rintro ⟨e, ⟨he, hg⟩, rfl⟩
    exact ⟨e.1, he, hg⟩
  · rintro ⟨k, he, hg⟩
    exact ⟨(k, n), ⟨he, hg⟩, rfl⟩

theorem kids_nodup (M L : List (String × Nat)) (i : Nat) (hnd : (L.map Prod.snd).Nodup) :
    (kids M L i).Nodup := by
  unfold kids
  exact hnd.sublist ((List.filter_sublist L).map Prod.snd)

theorem linkLoop_result (M L : List (String × Nat)) (H : List Node) (res : Option Nat) :
    (L.foldl (linkStep M) (H, res)).2 =
      match (L.filter (fun e => decide (mapGet M (Dir e.1) = none))).getLast? with
      | some e => some e.2
      | none => res := by
  induction L using List.reverseRecOn with
  | nil => rfl
  | append_singleton t e ih =>
    rw [List.foldl_append, List.foldl_cons, List.foldl_nil, List.filter_append]
    cases hg : mapGet M (Dir e.1) with
    | none =>
      have : List.filter (fun e => decide (mapGet M (Dir e.1) = none)) [e] = [e] := by
        simp [List.filter, hg]
      rw [this, List.getLast?_append, List.getLast?_singleton]
      simp [linkStep, hg]
    | some p =>
      have : List.filter (fun e => decide (mapGet M (Dir e.1) = none)) [e] = [] := by
        simp [List.filter, hg]
      rw [this, List.append_nil, ← ih]
      simp [linkStep, hg]

theorem key_unique {st : Build} (h : WalkInv st) {k1 k2 : String} {v : Nat}
    (h1 : (k1, v) ∈ st.parents) (h2 : (k2, v) ∈ st.parents) : k1 = k2 := by
  obtain ⟨nd1, hn1, hp1⟩ := h.pathOf _ h1
  obtain ⟨nd2, hn2, hp2⟩ := h.pathOf _ h2
  simp only at hn1 hn2 hp1 hp2
  rw [hn1] at hn2
  cases hn2
  rw [← hp1, ← hp2]

theorem vals_nodup {st : Build} (h : WalkInv st) : (st.parents.map Prod.snd).Nodup := by
  refine List.Nodup.map_on ?_ (List.Nodup.of_map _ h.keys)
  rintro ⟨k1, v1⟩ h1 ⟨k2, v2⟩ h2 hv
  simp only at hv
  subst hv
  rw [key_unique h h1 h2]

/-- The heap after the link loop, field by field. -/
theorem linked_node {st : Build} (hinv : WalkInv st) (L : List (String × Nat))
    (res : Option Nat) (i : Nat) (nd1 : Node)
    (h : (L.foldl (linkStep st.parents) (st.heap, res)).1[i]? = some nd1) :
    ∃ nd, st.heap[i]? = some nd ∧ nd1.FullPath = nd.FullPath ∧ nd1.Info = nd.Info ∧
      nd1.Children = kids st.parents L i ∧ nd1.Parent = par st.parents L i none := by
  rw [linkLoop_get] at h
  cases hi : st.heap[i]? with
  | none => rw [hi] at h; cases h
  | some nd =>
    rw [hi] at h
    simp only [Option.map_some', Option.some.injEq] at h
    obtain ⟨hc, hp⟩ := hinv.blank i nd hi
    refine ⟨nd, rfl, ?_, ?_, ?_, ?_⟩ <;> rw [← h]
    · simp [hc]
    · simp [hp]

theorem linked_node_of_heap {st : Build} (L : List (String × Nat))
    (res : Option Nat) (i : Nat) (nd : Node) (h : st.heap[i]? = some nd) :
    ∃ nd1, (L.foldl (linkStep st.parents) (st.heap, res)).1[i]? = some nd1 := by
  rw [linkLoop_get, h]
  exact ⟨_, rfl⟩

end DirectoryTree

namespace DirectoryTree

/-! ## `NewTree` -/

/-- The three ways through `NewTree`. -/
theorem NewTree_cases (os : OS) (root : String) :
    (∃ e, os.Abs root = .error e ∧ NewTree os root = { heap := [], result := none, err := some e })
    ∨ (∃ R st e, os.Abs root = .ok R ∧
        filepathWalk (os.Walk R) { heap := [], parents := [] } = (st, some e) ∧ WalkInv st ∧
        NewTree os root = { heap := st.heap, result := none, err := some e })
    ∨ (∃ R st, os.Abs root = .ok R ∧
        filepathWalk (os.Walk R) { heap := [], parents := [] } = (st, none) ∧ WalkInv st ∧
        NewTree os root =
          { heap := ((os.range st.parents).foldl (linkStep st.parents) (st.heap, none)).1
            result := ((os.range st.parents).foldl (linkStep st.parents) (st.heap, none)).2
            err := none }) := by
  cases hA : os.Abs root with
  | error e => exact Or.inl ⟨e, rfl, by simp [NewTree, hA]⟩
  | ok R =>
    have hinv := walkInv_filepathWalk (os.Walk R) walkInv_empty
    rcases hw : filepathWalk (os.Walk R) { heap := [], parents := [] } with ⟨st, _ | e⟩
    · rw [hw] at hinv
      exact Or.inr (Or.inr ⟨R, st, rfl, hw, hinv, by simp [NewTree, hA, hw]⟩)
    · rw [hw] at hinv
      exact Or.inr (Or.inl ⟨R, st, e, rfl, hw, hinv, by simp [NewTree, hA, hw]⟩)

theorem nodup_snd_of_perm {st : Build} (hinv : WalkInv st) {L : List (String × Nat)}
    (hperm : L.Perm st.parents) : (L.map Prod.snd).Nodup :=
  (hperm.map Prod.snd).nodup_iff.2 (vals_nodup hinv)

/-- Parent and child fields agree after the link loop. -/
theorem linked_parent_child {st : Build} (hinv : WalkInv st) {L : List (String × Nat)}
    (hperm : L.Perm st.parents) (res : Option Nat) (n p : Nat) (nd : Node)
    (hn : (L.foldl (linkStep st.parents) (st.heap, res)).1[n]? = some nd)
    (hp : nd.Parent = some p) :
    ∃ pd, (L.foldl (linkStep st.parents) (st.heap, res)).1[p]? = some pd ∧
      pd.Children.count n = 1 ∧
      (∀ q qd, (L.foldl (linkStep st.parents) (st.heap, res)).1[q]? = some qd → q ≠ p →
        n ∉ qd.Children) ∧
      Dir nd.FullPath = pd.FullPath := by
  have hnd := nodup_snd_of_perm hinv hperm
  obtain ⟨nd0, hn0, hpath, -, -, hpar⟩ := linked_node hinv L res n nd hn
  rw [hp] at hpar
  have hmem : n ∈ L.map Prod.snd := by
    by_contra hc
    rw [par_of_not_mem _ _ _ _ hc] at hpar
    cases hpar
  obtain ⟨⟨k, n1⟩, hk, hk2⟩ := List.mem_map.1 hmem
  simp only at hk2
  subst hk2
  rw [par_of_mem _ _ k _ hnd hk] at hpar
  have hkM : (k, n1) ∈ st.parents := hperm.subset hk
  obtain ⟨nd0a, hn0a, hka⟩ := hinv.pathOf _ hkM
  simp only at hn0a hka
  rw [hn0] at hn0a
  cases hn0a
  obtain ⟨pd0, hpd0, hpk⟩ := hinv.pathOf _ (mem_of_mapGet hpar.symm)
  simp only at hpd0 hpk
  obtain ⟨pd, hpd⟩ := linked_node_of_heap L res p pd0 hpd0
  obtain ⟨pd0a, hpd0a, hppath, -, hpch, -⟩ := linked_node hinv L res p pd hpd
  rw [hpd0] at hpd0a
  cases hpd0a
  refine ⟨pd, hpd, ?_, ?_, ?_⟩
  · rw [hpch]
    exact List.count_eq_one_of_mem (kids_nodup _ _ _ hnd)
      ((mem_kids _ _ _ _).2 ⟨k, hk, hpar.symm⟩)
  · intro q qd hq hqp hnq
    obtain ⟨-, -, -, -, hqch, -⟩ := linked_node hinv L res q qd hq
    rw [hqch] at hnq
    obtain ⟨k1, hk1, hg1⟩ := (mem_kids _ _ _ _).1 hnq
    have : k1 = k := key_unique hinv (hperm.subset hk1) hkM
    subst this
    rw [hg1] at hpar
    exact hqp (Option.some.inj hpar.symm)
  · rw [hpath, hka, hppath, hpk]

end DirectoryTree

namespace DirectoryTree

/-- A walk without failures and without repeated paths: every node allocated is
the one the map holds for its path, and the keys of the map are the paths. -/
theorem walk_visits (es : List (String × OsFileInfo)) :
    ∀ (st : Build),
    (∀ (i : Nat) (nd : Node), st.heap[i]? = some nd → (nd.FullPath, i) ∈ st.parents) →
    (es.map Prod.fst).Nodup → (∀ p ∈ es.map Prod.fst, p ∉ st.parents.map Prod.fst) →
    (filepathWalk (visits es) st).2 = none ∧
    (∀ (i : Nat) (nd : Node), (filepathWalk (visits es) st).1.heap[i]? = some nd →
      (nd.FullPath, i) ∈ (filepathWalk (visits es) st).1.parents) ∧
    (∀ k, k ∈ (filepathWalk (visits es) st).1.parents.map Prod.fst ↔
      k ∈ st.parents.map Prod.fst ∨ k ∈ es.map Prod.fst) := by
  induction es with
  | nil =>
    intro st hfull _ _
    exact ⟨rfl, hfull, by simp [visits, filepathWalk]⟩
  | cons e t ih =>
    intro st hfull hnd hfresh
    rw [List.map_cons, List.nodup_cons] at hnd
    have hstep : filepathWalk (visits (e :: t)) st =
        filepathWalk (visits t) (walkFunc st (WalkCall.visit e.1 e.2)).1 := by
      simp [visits, filepathWalk, walkFunc]
    rw [hstep]
    have hnew : e.1 ∉ st.parents.map Prod.fst := hfresh _ (by simp)
    have hpar : (walkFunc st (WalkCall.visit e.1 e.2)).1.parents =
        st.parents ++ [(e.1, st.heap.length)] := mapSet_of_not_mem _ hnew
    have hheap : (walkFunc st (WalkCall.visit e.1 e.2)).1.heap =
        st.heap ++ [Node.mk e.1 (fileInfoFromInterface e.2) [] none] := rfl
    obtain ⟨h1, h2, h3⟩ := ih (walkFunc st (WalkCall.visit e.1 e.2)).1 (by
        intro i nd hi
        rw [hpar]
        rw [hheap] at hi
        by_cases hlt : i < st.heap.length
        · rw [List.getElem?_append_left hlt] at hi
          exact List.mem_append_left _ (hfull i nd hi)
        · rw [List.getElem?_append_right (Nat.le_of_not_lt hlt)] at hi
          cases hsub : i - st.heap.length with
          | zero =>
            rw [hsub] at hi
            simp only [List.getElem?_cons_zero, Option.some.injEq] at hi
            subst hi
            have : i = st.heap.length := by omega
            simp [this]
          | succ j =>
            rw [hsub] at hi
            simp at hi) hnd.2 (by
        intro p hp hc
        rw [hpar, List.map_append, List.mem_append] at hc
        rcases hc with hc | hc
        · exact hfresh p (by simp [List.mem_map] at hp ⊢; exact Or.inr hp) hc
        · simp only [List.map_cons, List.map_nil, List.mem_singleton] at hc
          exact hnd.1 (hc ▸ hp))
    refine ⟨h1, h2, fun k => ?_⟩
    rw [h3, hpar]
    simp only [List.map_append, List.map_cons, List.map_nil, List.mem_append, List.mem_singleton,
      List.mem_cons]
    tauto

/-- The children of a node after the link loop are the nodes whose parent
directory is the node's path, when every node is in the map. -/
theorem linked_children {st : Build} (hinv : WalkInv st)
    (hfull : ∀ (i : Nat) (nd : Node), st.heap[i]? = some nd → (nd.FullPath, i) ∈ st.parents)
    {L : List (String × Nat)} (hperm : L.Perm st.parents) (res : Option Nat) (m : Nat)
    (md : Node) (hm : (L.foldl (linkStep st.parents) (st.heap, res)).1[m]? = some md) (n : Nat) :
    n ∈ md.Children ↔ ∃ nd, (L.foldl (linkStep st.parents) (st.heap, res)).1[n]? = some nd ∧
      Dir nd.FullPath = md.FullPath := by
  obtain ⟨md0, hm0, hmpath, -, hmch, -⟩ := linked_node hinv L res m md hm
  have hmM := hfull m md0 hm0
  rw [hmch, mem_kids]
  constructor
  · rintro ⟨k, hk, hg⟩
    have hkM := hperm.subset hk
    obtain ⟨nd0, hn0, hnk⟩ := hinv.pathOf _ hkM
    simp only at hn0 hnk
    obtain ⟨nd, hn⟩ := linked_node_of_heap L res n nd0 hn0
    obtain ⟨nd0a, hn0a, hnpath, -, -, -⟩ := linked_node hinv L res n nd hn
    rw [hn0] at hn0a
    cases hn0a
    refine ⟨nd, hn, ?_⟩
    rw [hnpath, hnk, hmpath]
    exact key_unique hinv (mem_of_mapGet hg) hmM
  · rintro ⟨nd, hn, hd⟩
    obtain ⟨nd0, hn0, hnpath, -, -, -⟩ := linked_node hinv L res n nd hn
    refine ⟨nd0.FullPath, hperm.symm.subset (hfull n nd0 hn0), ?_⟩
    rw [← hnpath, hd, hmpath]
    exact mapGet_of_mem hinv.keys hmM

end DirectoryTree

namespace DirectoryTree

/-- A successful run on a walk without repeated paths, taken apart. -/
theorem NewTree_visits (os : OS) (root R : String) (es : List (String × OsFileInfo))
    (hAbs : os.Abs root = .ok R) (hWalk : os.Walk R = visits es)
    (hnd : (es.map Prod.fst).Nodup) :
    ∃ st, WalkInv st ∧
      (∀ (i : Nat) (nd : Node), st.heap[i]? = some nd → (nd.FullPath, i) ∈ st.parents) ∧
      (∀ k, k ∈ st.parents.map Prod.fst ↔ k ∈ es.map Prod.fst) ∧
      NewTree os root =
        { heap := ((os.range st.parents).foldl (linkStep st.parents) (st.heap, none)).1
          result := ((os.range st.parents).foldl (linkStep st.parents) (st.heap, none)).2
          err := none } := by
  obtain ⟨h1, h2, h3⟩ := walk_visits es { heap := [], parents := [] } (by simp) hnd (by simp)
  have hinv := walkInv_filepathWalk (visits es) walkInv_empty
  rcases hw : filepathWalk (visits es) { heap := [], parents := [] } with ⟨st, e⟩
  rw [hw] at h1 h2 h3 hinv
  simp only at h1
  subst h1
  refine ⟨st, hinv, h2, ?_, ?_⟩
  · intro k
    rw [h3]
    simp
  · simp [NewTree, hAbs, hWalk, hw]

/-- A run that returns a node, on a walk of one root: the shape of the heap. -/
theorem NewTree_linked (os : OS) (root R : String) (es : List (String × OsFileInfo))
    (hAbs : os.Abs root = .ok R) (hWalk : os.Walk R = visits es)
    (hrange : ∀ m, (os.range m).Perm m) (hW : IsWalkOf R (es.map Prod.fst)) (r : Nat)
    (hres : (NewTree os root).result = some r) :
    ∃ M, Linked R (es.map Prod.fst) M (NewTree os root).heap r := by
  obtain ⟨st, hinv, hfull, hkeys, hN⟩ := NewTree_visits os root R es hAbs hWalk hW.once
  have hperm := hrange st.parents
  have hnd := nodup_snd_of_perm hinv hperm
  rw [hN] at hres ⊢
  simp only at hres ⊢
  rw [linkLoop_result] at hres
  -- the returned node
  have hroot : (R, r) ∈ st.parents ∧ mapGet st.parents (Dir R) = none := by
    cases hl : (List.filter (fun e => decide (mapGet st.parents (Dir e.1) = none))
        (os.range st.parents)).getLast? with
    | none => rw [hl] at hres; cases hres
    | some e =>
      rw [hl] at hres
      simp only [Option.some.injEq] at hres
      have hmem := List.mem_of_getLast?_eq_some hl
      rw [List.mem_filter, decide_eq_true_eq] at hmem
      have heM : e ∈ st.parents := hperm.subset hmem.1
      have hk : e.1 ∈ es.map Prod.fst := (hkeys _).1 (List.mem_map_of_mem Prod.fst heM)
      have heR : e.1 = R := by
        by_contra hne
        have := (hkeys _).2 (hW.closed _ hk hne)
        exact (mapGet_eq_none_iff _ _).1 hmem.2 this
      subst hres
      rw [← heR]
      exact ⟨heM, hmem.2⟩
  refine ⟨st.parents, hinv.keys, hkeys, ?_, ?_, hroot.1, hroot.2⟩
  · intro e he
    obtain ⟨nd0, hn0, hp0⟩ := hinv.pathOf e he
    obtain ⟨nd, hn⟩ := linked_node_of_heap (os.range st.parents) none e.2 nd0 hn0
    obtain ⟨nd0a, hn0a, hpath, -, hch, hpar⟩ := linked_node hinv _ none e.2 nd hn
    rw [hn0] at hn0a
    cases hn0a
    refine ⟨nd, hn, hpath.trans hp0, ?_, ?_⟩
    · rw [hpar]
      exact par_of_mem _ _ e.1 e.2 hnd (hperm.symm.subset he)
    · intro c
      rw [hch, mem_kids]
      constructor
      · rintro ⟨k, hk, hg⟩
        exact ⟨k, hperm.subset hk, hg⟩
      · rintro ⟨k, hk, hg⟩
        exact ⟨k, hperm.symm.subset hk, hg⟩
  · intro i nd hi
    obtain ⟨nd0, hn0, hpath, -, -, -⟩ := linked_node hinv _ none i nd hi
    rw [hpath]
    exact hfull i nd0 hn0

end DirectoryTree

namespace DirectoryTree

theorem val_unique {M : List (String × Nat)} (hnd : (M.map Prod.fst).Nodup) {k : String}
    {v1 v2 : Nat} (h1 : (k, v1) ∈ M) (h2 : (k, v2) ∈ M) : v1 = v2 := by
  have e1 := mapGet_of_mem hnd h1
  have e2 := mapGet_of_mem hnd h2
  rw [e1] at e2
  exact Option.some.inj e2

theorem climb_add (H : List Node) (a b : Nat) :
    ∀ n, climb H (a + b) n = (climb H a n).bind (climb H b) := by
  induction a with
  | zero => intro n; simp [climb]
  | succ a ih =>
    intro n
    rw [Nat.succ_add]
    cases hn : H[n]? with
    | none => simp [climb, hn]
    | some nd =>
      cases hp : nd.Parent with
      | none => simp [climb, hn, hp]
      | some p =>
        simp only [climb, hn, hp]
        exact ih p

theorem climb_mul (H : List Node) (k n : Nat) (h : climb H k n = some n) :
    ∀ t, climb H (t * k) n = some n := by
  intro t
  induction t with
  | zero => simp [climb]
  | succ t ih => rw [Nat.succ_mul, climb_add, ih, Option.some_bind, h]

theorem linked_root {R : String} {paths : List String} {M : List (String × Nat)}
    {H : List Node} {r : Nat} (hL : Linked R paths M H r) :
    ∃ rd, H[r]? = some rd ∧ rd.Parent = none ∧ rd.FullPath = R := by
  obtain ⟨rd, hrd, hpath, hpar, -⟩ := hL.node _ hL.rootEntry
  exact ⟨rd, hrd, hpar.trans hL.rootOrphan, hpath⟩

/-- The node of a path other than the root path has the node of the parent
directory as `Parent` and is among its `Children`. -/
theorem linked_step {R : String} {paths : List String} {M : List (String × Nat)}
    {H : List Node} {r : Nat} (hL : Linked R paths M H r) (hW : IsWalkOf R paths)
    {p : String} {n : Nat} (hn : (p, n) ∈ M) (hne : p ≠ R) :
    ∃ q nd, (Dir p, q) ∈ M ∧ H[n]? = some nd ∧ nd.Parent = some q ∧ IsChild H q n := by
  have hp : p ∈ paths := (hL.keys p).1 (List.mem_map_of_mem Prod.fst hn)
  have hd : Dir p ∈ M.map Prod.fst := (hL.keys _).2 (hW.closed p hp hne)
  obtain ⟨⟨k, q⟩, hq, hk⟩ := List.mem_map.1 hd
  simp only at hk
  subst hk
  have hg : mapGet M (Dir p) = some q := mapGet_of_mem hL.keysNodup hq
  obtain ⟨nd, hnd, -, hpar, -⟩ := hL.node _ hn
  obtain ⟨qd, hqd, -, -, hch⟩ := hL.node _ hq
  exact ⟨q, nd, hq, hnd, hpar.trans hg, qd, hqd, (hch n).2 ⟨p, hn, hg⟩⟩

theorem linked_reach {R : String} {paths : List String} {M : List (String × Nat)}
    {H : List Node} {r : Nat} (hL : Linked R paths M H r) (hW : IsWalkOf R paths) :
    ∀ (k : Nat) (p : String) (n : Nat), (p, n) ∈ M → Dir^[k] p = R → Reach H r n := by
  intro k
  induction k with
  | zero =>
    intro p n hn hk
    simp only [Function.iterate_zero, id_eq] at hk
    subst hk
    rw [val_unique hL.keysNodup hn hL.rootEntry]
    exact Relation.ReflTransGen.refl
  | succ k ih =>
    intro p n hn hk
    by_cases hne : p = R
    · subst hne
      rw [val_unique hL.keysNodup hn hL.rootEntry]
      exact Relation.ReflTransGen.refl
    · obtain ⟨q, nd, hq, -, -, hch⟩ := linked_step hL hW hn hne
      rw [Function.iterate_succ_apply] at hk
      exact Relation.ReflTransGen.tail (ih (Dir p) q hq hk) hch

theorem linked_climb_root {R : String} {paths : List String} {M : List (String × Nat)}
    {H : List Node} {r : Nat} (hL : Linked R paths M H r) (hW : IsWalkOf R paths) :
    ∀ (k : Nat) (p : String) (n : Nat), (p, n) ∈ M → Dir^[k] p = R →
      ∃ j, climb H j n = some r := by
  intro k
  induction k with
  | zero =>
    intro p n hn hk
    simp only [Function.iterate_zero, id_eq] at hk
    subst hk
    rw [val_unique hL.keysNodup hn hL.rootEntry]
    exact ⟨0, rfl⟩
  | succ k ih =>
    intro p n hn hk
    by_cases hne : p = R
    · subst hne
      rw [val_unique hL.keysNodup hn hL.rootEntry]
      exact ⟨0, rfl⟩
    · obtain ⟨q, nd, hq, hnd, hpar, -⟩ := linked_step hL hW hn hne
      rw [Function.iterate_succ_apply] at hk
      obtain ⟨j, hj⟩ := ih (Dir p) q hq hk
      refine ⟨j + 1, ?_⟩
      simp only [climb, hnd, hpar]
      exact hj

theorem linked_climb_none {R : String} {paths : List String} {M : List (String × Nat)}
    {H : List Node} {r : Nat} (hL : Linked R paths M H r) (hW : IsWalkOf R paths) :
    ∀ (j : Nat) (p : String) (n : Nat), (p, n) ∈ M → Dir^[j] p = R →
      ∀ k, j < k → climb H k n = none := by
  have hrootcase : ∀ (n : Nat), (R, n) ∈ M → ∀ k, 0 < k → climb H k n = none := by
    intro n hn k hk
    rw [val_unique hL.keysNodup hn hL.rootEntry]
    obtain ⟨rd, hrd, hpar, -⟩ := linked_root hL
    obtain ⟨k1, rfl⟩ : ∃ k1, k = k1 + 1 := ⟨k - 1, by omega⟩
    simp only [climb, hrd, hpar]
  intro j
  induction j with
  | zero =>
    intro p n hn hk k hjk
    simp only [Function.iterate_zero, id_eq] at hk
    subst hk
    exact hrootcase n hn k hjk
  | succ j ih =>
    intro p n hn hk k hjk
    by_cases hne : p = R
    · subst hne
      exact hrootcase n hn k (by omega)
    · obtain ⟨q, nd, hq, hnd, hpar, -⟩ := linked_step hL hW hn hne
      rw [Function.iterate_succ_apply] at hk
      obtain ⟨k1, rfl⟩ : ∃ k1, k = k1 + 1 := ⟨k - 1, by omega⟩
      simp only [climb, hnd, hpar]
      exact ih (Dir p) q hq hk k1 (by omega)

theorem linked_acyclic {R : String} {paths : List String} {M : List (String × Nat)}
    {H : List Node} {r : Nat} (hL : Linked R paths M H r) (hW : IsWalkOf R paths)
    (n k : Nat) (hk : 0 < k) : climb H k n ≠ some n := by
  intro hc
  obtain ⟨k1, rfl⟩ : ∃ k1, k = k1 + 1 := ⟨k - 1, by omega⟩
  cases hn : H[n]? with
  | none => simp [climb, hn] at hc
  | some nd =>
    have hM := hL.full n nd hn
    obtain ⟨j, hj⟩ := hW.below _ ((hL.keys _).1 (List.mem_map_of_mem Prod.fst hM))
    have h1 := climb_mul H (k1 + 1) n hc (j + 1)
    have h2 := linked_climb_none hL hW j _ n hM hj ((j + 1) * (k1 + 1)) (by
      calc j < j + 1 := Nat.lt_succ_self j
        _ ≤ (j + 1) * (k1 + 1) := Nat.le_mul_of_pos_right _ (Nat.succ_pos k1))
    rw [h1] at h2
    cases h2

/-- A child edge is the converse of a parent edge. -/
theorem linked_child_parent {R : String} {paths : List String} {M : List (String × Nat)}
    {H : List Node} {r : Nat} (hL : Linked R paths M H r) {m c : Nat}
    (h : IsChild H m c) : climb H 1 c = some m := by
  obtain ⟨md, hmd, hc⟩ := h
  have hmM := hL.full m md hmd
  obtain ⟨md1, hmd1, -, -, hch⟩ := hL.node _ hmM
  simp only at hmd1
  rw [hmd] at hmd1
  cases hmd1
  obtain ⟨k, hk, hg⟩ := (hch c).1 hc
  obtain ⟨cd, hcd, -, hpar, -⟩ := hL.node _ hk
  simp only at hcd hpar
  simp [climb, hcd, hpar, hg]

theorem linked_transGen_climb {R : String} {paths : List String} {M : List (String × Nat)}
    {H : List Node} {r : Nat} (hL : Linked R paths M H r) {a b : Nat}
    (h : Relation.TransGen (IsChild H) a b) : ∃ k, 0 < k ∧ climb H k b = some a := by
  induction h with
  | single h => exact ⟨1, Nat.one_pos, linked_child_parent hL h⟩
  | tail _ h ih =>
    obtain ⟨k, hk, hc⟩ := ih
    refine ⟨1 + k, by omega, ?_⟩
    rw [climb_add, linked_child_parent hL h, Option.some_bind, hc]

end DirectoryTree

namespace DirectoryTree

/-! ## `GetFiles` -/

/-- The loop of `GetFiles` in closed form, when the recursive calls on the
directories among the children return. -/
theorem getFilesLoop_eq (heap : List Node) (recur : Nat → Option (List Nat)) (ext : String)
    (sub : Nat → List Nat) :
    ∀ (cs : List Nat) (files : List Nat),
    (∀ c ∈ cs, ∃ cd : Node, heap[c]? = some cd ∧
      (cd.Info.IsDir = true → recur c = some (sub c))) →
    getFilesLoop heap recur ext cs files =
      some (files ++ (cs.map (contribution heap ext sub)).flatten) := by
  intro cs
  induction cs with
  | nil => intro files _; simp [getFilesLoop]
  | cons c rest ih =>
    intro files h
    obtain ⟨cd, hcd, hrec⟩ := h c (List.mem_cons_self _ _)
    have hrest := fun files1 => ih files1 (fun c1 h1 => h c1 (List.mem_cons_of_mem _ h1))
    rw [List.map_cons, List.flatten_cons]
    unfold getFilesLoop
    simp only [hcd]
    by_cases hdir : cd.Info.IsDir = true
    · simp only [hdir, if_true, hrec hdir, hrest, contribution, hcd, List.append_assoc]
    · by_cases hext : ext = "" ∨ ext = cd.Info.Ext
      · simp only [hdir, hext, if_true, hrest, contribution, hcd, List.append_assoc]
        simp
      · simp only [hdir, hext, if_false, hrest, contribution, hcd, List.nil_append]
        simp

theorem getFiles_succ (heap : List Node) (fuel n : Nat) (ext : String) (nd : Node)
    (hn : heap[n]? = some nd) :
    GetFiles heap (fuel + 1) n ext =
      getFilesLoop heap (fun child => GetFiles heap fuel child ext) ext nd.Children [] := by
  simp [GetFiles, hn]

/-- With the `Children` edges forming trees, the recursion of `GetFiles` ends:
fuel above the rank of the node is enough, and the result is the concatenation
of the contributions of the children. -/
theorem getFiles_unfold {heap : List Node} {rank : Nat → Nat}
    (hvalid : ∀ m c, IsChild heap m c → c < heap.length)
    (hrank : ∀ m c, IsChild heap m c → rank c < rank m) (ext : String) :
    ∀ (fuel n : Nat) (nd : Node), heap[n]? = some nd → rank n < fuel →
      GetFiles heap fuel n ext = some ((nd.Children.map
        (contribution heap ext (fun c => (GetFiles heap (fuel - 1) c ext).getD []))).flatten) := by
  intro fuel
  induction fuel with
  | zero => intro n nd _ h; omega
  | succ fuel ih =>
    intro n nd hn hfuel
    rw [getFiles_succ heap fuel n ext nd hn, Nat.add_sub_cancel]
    rw [getFilesLoop_eq heap _ ext (fun c => (GetFiles heap fuel c ext).getD [])]
    · simp
    · intro c hc
      have hch : IsChild heap n c := ⟨nd, hn, hc⟩
      have hlt := hvalid n c hch
      refine ⟨heap[c], List.getElem?_eq_getElem hlt, fun _ => ?_⟩
      have hr : rank c < fuel := by
        have := hrank n c hch
        omega
      rw [ih c heap[c] (List.getElem?_eq_getElem hlt) hr]
      rfl

theorem getFiles_isSome {heap : List Node} {rank : Nat → Nat}
    (hvalid : ∀ m c, IsChild heap m c → c < heap.length)
    (hrank : ∀ m c, IsChild heap m c → rank c < rank m) (ext : String)
    (fuel n : Nat) (nd : Node) (hn : heap[n]? = some nd) (hfuel : rank n < fuel) :
    ∃ r, GetFiles heap fuel n ext = some r :=
  ⟨_, getFiles_unfold hvalid hrank ext fuel n nd hn hfuel⟩

/-- More fuel does not change a result. -/
theorem getFilesLoop_mono (heap : List Node) (rec1 rec2 : Nat → Option (List Nat))
    (ext : String) (hrec : ∀ c r, rec1 c = some r → rec2 c = some r) :
    ∀ (cs files r : List Nat), getFilesLoop heap rec1 ext cs files = some r →
      getFilesLoop heap rec2 ext cs files = some r := by
  intro cs
  induction cs with
  | nil => intro files r h; simpa [getFilesLoop] using h
  | cons c rest ih =>
    intro files r h
    unfold getFilesLoop at h ⊢
    cases hc : heap[c]? with
    | none => simp [hc] at h
    | some cd =>
      simp only [hc] at h ⊢
      by_cases hdir : cd.Info.IsDir = true
      · simp only [hdir, if_true] at h ⊢
        cases h1 : rec1 c with
        | none => simp [h1] at h
        | some s =>
          simp only [h1] at h
          simp only [hrec c s h1]
          exact ih _ _ h
      · simp only [hdir] at h ⊢
        by_cases hext : ext = "" ∨ ext = cd.Info.Ext
        · simp only [hext, if_true] at h ⊢
          exact ih _ _ h
        · simp only [hext, if_false] at h ⊢
          exact ih _ _ h

theorem getFiles_mono (heap : List Node) (ext : String) :
    ∀ (fuel n : Nat) (r : List Nat), GetFiles heap fuel n ext = some r →
      GetFiles heap (fuel + 1) n ext = some r := by
  intro fuel
  induction fuel with
  | zero => intro n r h; simp [GetFiles] at h
  | succ fuel ih =>
    intro n r h
    cases hn : heap[n]? with
    | none => simp [GetFiles, hn] at h
    | some nd =>
      rw [getFiles_succ heap _ n ext nd hn] at h ⊢
      exact getFilesLoop_mono heap _ _ ext (fun c s hs => ih c s hs) _ _ _ h

theorem getFiles_mono_le (heap : List Node) (ext : String) (n : Nat) (r : List Nat)
    (fuel1 fuel2 : Nat) (hle : fuel1 ≤ fuel2) (h : GetFiles heap fuel1 n ext = some r) :
    GetFiles heap fuel2 n ext = some r := by
  induction hle with
  | refl => exact h
  | step _ ih => exact getFiles_mono heap ext _ n r ih

end DirectoryTree

namespace DirectoryTree

theorem unique_parent {heap : List Node} {rank : Nat → Nat} (hT : IsTreeHeap heap rank)
    {m1 m2 d : Nat} (h1 : IsChild heap m1 d) (h2 : IsChild heap m2 d) : m1 = m2 := by
  obtain ⟨md1, hm1, hd1⟩ := h1
  obtain ⟨md2, hm2, hd2⟩ := h2
  have hpw := (List.nodup_flatten.1 hT.unshared).2
  rw [List.pairwise_iff_getElem] at hpw
  obtain ⟨hl1, he1⟩ := List.getElem?_eq_some.1 hm1
  obtain ⟨hl2, he2⟩ := List.getElem?_eq_some.1 hm2
  by_contra hne
  rcases Nat.lt_or_gt_of_ne hne with hlt | hlt
  · have := hpw m1 m2 (by simpa using hl1) (by simpa using hl2) hlt
    simp only [List.getElem_map, he1, he2] at this
    exact this hd1 hd2
  · have := hpw m2 m1 (by simpa using hl2) (by simpa using hl1) hlt
    simp only [List.getElem_map, he1, he2] at this
    exact this hd2 hd1

theorem children_nodup {heap : List Node} {rank : Nat → Nat} (hT : IsTreeHeap heap rank)
    {n : Nat} {nd : Node} (hn : heap[n]? = some nd) : nd.Children.Nodup := by
  refine (List.nodup_flatten.1 hT.unshared).1 _ ?_
  exact List.mem_map_of_mem Node.Children (List.mem_iff_getElem?.2 ⟨n, hn⟩)

theorem rank_le_of_reach {heap : List Node} {rank : Nat → Nat}
    (hrank : ∀ m c, IsChild heap m c → rank c < rank m) {a b : Nat}
    (h : Relation.ReflTransGen (IsChild heap) a b) : rank b ≤ rank a := by
  induction h with
  | refl => exact Nat.le_refl _
  | tail _ hc ih => exact Nat.le_of_lt (Nat.lt_of_lt_of_le (hrank _ _ hc) ih)

theorem rank_lt_of_desc {heap : List Node} {rank : Nat → Nat}
    (hrank : ∀ m c, IsChild heap m c → rank c < rank m) {a b : Nat}
    (h : Desc heap a b) : rank b < rank a := by
  obtain ⟨c, hac, hcb⟩ := Relation.TransGen.head'_iff.1 h
  exact Nat.lt_of_le_of_lt (rank_le_of_reach hrank hcb) (hrank _ _ hac)

/-- Two nodes with a common descendant lie on one branch. -/
theorem reach_comparable {heap : List Node} {rank : Nat → Nat} (hT : IsTreeHeap heap rank)
    {a b d : Nat} (ha : Relation.ReflTransGen (IsChild heap) a d)
    (hb : Relation.ReflTransGen (IsChild heap) b d) :
    Relation.ReflTransGen (IsChild heap) a b ∨ Relation.ReflTransGen (IsChild heap) b a := by
  induction ha with
  | refl => exact Or.inr hb
  | @tail m d1 ham hmd ih =>
    rcases Relation.ReflTransGen.cases_tail hb with heq | ⟨m2, hbm2, hm2d⟩
    · subst heq
      exact Or.inl (Relation.ReflTransGen.tail ham hmd)
    · have := unique_parent hT hm2d hmd
      subst this
      exact ih hbm2

theorem siblings_disjoint {heap : List Node} {rank : Nat → Nat} (hT : IsTreeHeap heap rank)
    {n c1 c2 d : Nat} (h1 : IsChild heap n c1) (h2 : IsChild heap n c2) (hne : c1 ≠ c2)
    (hd1 : Relation.ReflTransGen (IsChild heap) c1 d)
    (hd2 : Relation.ReflTransGen (IsChild heap) c2 d) : False := by
  have key : ∀ x y : Nat, IsChild heap n x → IsChild heap n y → x ≠ y →
      Relation.ReflTransGen (IsChild heap) x y → False := by
    intro x y hx hy hxy hreach
    rcases Relation.ReflTransGen.cases_tail hreach with heq | ⟨m, hxm, hmy⟩
    · exact hxy heq.symm
    · have := unique_parent hT hmy hy
      subst this
      have hle := rank_le_of_reach hT.ranked hxm
      have hlt := hT.ranked _ _ hx
      omega
  rcases reach_comparable hT hd1 hd2 with h | h
  · exact key c1 c2 h1 h2 hne h
  · exact key c2 c1 h2 h1 (Ne.symm hne) h

theorem mem_contribution {heap : List Node} {ext : String} {sub : Nat → List Nat} {c d : Nat}
    (h : d ∈ contribution heap ext sub c) :
    ∃ cd, heap[c]? = some cd ∧
      ((cd.Info.IsDir = true ∧ d ∈ sub c) ∨
       (cd.Info.IsDir = false ∧ (ext = "" ∨ ext = cd.Info.Ext) ∧ d = c)) := by
  unfold contribution at h
  cases hc : heap[c]? with
  | none => simp [hc] at h
  | some cd =>
    simp only [hc] at h
    refine ⟨cd, rfl, ?_⟩
    cases hdir : cd.Info.IsDir with
    | true =>
      simp only [hdir, if_true] at h
      exact Or.inl ⟨rfl, h⟩
    | false =>
      by_cases hext : ext = "" ∨ ext = cd.Info.Ext
      · simp only [hdir, hext, if_true, Bool.false_eq_true, if_false, List.mem_singleton] at h
        exact Or.inr ⟨rfl, hext, h⟩
      · simp [hdir, hext] at h

/-- The result of `GetFiles` on a tree: no repetition, and exactly the
non-directory proper descendants that pass the filter. -/
theorem getFiles_spec {heap : List Node} {rank : Nat → Nat} (hT : IsTreeHeap heap rank)
    (hleaf : FilesAreLeaves heap) (ext : String) :
    ∀ (fuel n : Nat) (nd : Node), heap[n]? = some nd → rank n < fuel →
      ∃ r, GetFiles heap fuel n ext = some r ∧ r.Nodup ∧
        ∀ d, d ∈ r ↔ Desc heap n d ∧ IsFileFor heap ext d := by
  intro fuel
  induction fuel with
  | zero => intro n nd _ h; omega
  | succ fuel ih =>
    intro n nd hn hfuel
    -- what the recursive calls return
    have hsub : ∀ c, IsChild heap n c → ∀ cd, heap[c]? = some cd →
        ((GetFiles heap fuel c ext).getD []).Nodup ∧
        ∀ d, d ∈ (GetFiles heap fuel c ext).getD [] ↔
          Desc heap c d ∧ IsFileFor heap ext d := by
      intro c hch cd hcd
      have hr : rank c < fuel := by
        have := hT.ranked n c hch
        omega
      obtain ⟨r, hr1, hr2, hr3⟩ := ih c cd hcd hr
      rw [hr1]
      exact ⟨hr2, hr3⟩
    refine ⟨_, getFiles_unfold hT.valid hT.ranked ext (fuel + 1) n nd hn hfuel, ?_, ?_⟩ <;>
      rw [Nat.add_sub_cancel]
    · -- no repetition
      rw [← List.flatMap_def, List.nodup_flatMap]
      constructor
      · intro c hc
        have hch : IsChild heap n c := ⟨nd, hn, hc⟩
        unfold contribution
        cases hcd : heap[c]? with
        | none => simp
        | some cd =>
          simp only
          by_cases hdir : cd.Info.IsDir = true
          · simp only [hdir, if_true]
            exact (hsub c hch cd hcd).1
          · by_cases hext : ext = "" ∨ ext = cd.Info.Ext <;> simp [hdir, hext]
      · refine (children_nodup hT hn).pairwise_of_forall_ne ?_
        intro c1 hc1 c2 hc2 hne
        have hch1 : IsChild heap n c1 := ⟨nd, hn, hc1⟩
        have hch2 : IsChild heap n c2 := ⟨nd, hn, hc2⟩
        have hin : ∀ c, IsChild heap n c → ∀ d,
            d ∈ contribution heap ext (fun c => (GetFiles heap fuel c ext).getD []) c →
            Relation.ReflTransGen (IsChild heap) c d := by
          intro c hch d hd
          obtain ⟨cd, hcd, h | h⟩ := mem_contribution hd
          · exact (((hsub c hch cd hcd).2 d).1 h.2).1.to_reflTransGen
          · rw [h.2.2]
        intro d hd1 hd2
        exact siblings_disjoint hT hch1 hch2 hne (hin c1 hch1 d hd1) (hin c2 hch2 d hd2)
    · -- membership
      intro d
      simp only [List.mem_flatten, List.mem_map]
      constructor
      · rintro ⟨l, ⟨c, hc, rfl⟩, hd⟩
        have hch : IsChild heap n c := ⟨nd, hn, hc⟩
        obtain ⟨cd, hcd, h | h⟩ := mem_contribution hd
        · obtain ⟨h1, h2⟩ := ((hsub c hch cd hcd).2 d).1 h.2
          exact ⟨Relation.TransGen.head hch h1, h2⟩
        · rw [h.2.2]
          exact ⟨Relation.TransGen.single hch, cd, hcd, h.1, h.2.1⟩
      · rintro ⟨hdesc, hfile⟩
        obtain ⟨c, hch, hcd⟩ := Relation.TransGen.head'_iff.1 hdesc
        obtain ⟨nd1, hn1, hc⟩ := hch
        rw [hn] at hn1
        cases hn1
        have hch : IsChild heap n c := ⟨nd, hn, hc⟩
        refine ⟨_, ⟨c, hc, rfl⟩, ?_⟩
        have hlt := hT.valid n c hch
        have hcn : heap[c]? = some heap[c] := List.getElem?_eq_getElem hlt
        rcases Relation.reflTransGen_iff_eq_or_transGen.1 hcd with heq | hcd
        · subst heq
          obtain ⟨dd, hdd, hfd, hext⟩ := hfile
          simp [contribution, hdd, hfd, hext]
        · have hdir : heap[c].Info.IsDir = true := by
            by_contra hnd
            have hnil := hleaf c _ hcn (by simpa using hnd)
            obtain ⟨x, ⟨xd, hxd, hx⟩, -⟩ := Relation.TransGen.head'_iff.1 hcd
            rw [hcn] at hxd
            cases hxd
            rw [hnil] at hx
            cases hx
          simp only [contribution, hcn, hdir, if_true]
          exact ((hsub c hch _ hcn).2 d).2 ⟨hcd, hfile⟩

end DirectoryTree

namespace DirectoryTree

theorem getFiles_desc {heap : List Node} {rank : Nat → Nat}
    (hvalid : ∀ m c, IsChild heap m c → c < heap.length)
    (hrank : ∀ m c, IsChild heap m c → rank c < rank m) (ext : String) :
    ∀ (fuel n : Nat) (nd : Node), heap[n]? = some nd → rank n < fuel →
      ∃ r, GetFiles heap fuel n ext = some r ∧ ∀ d ∈ r, Desc heap n d := by
  intro fuel
  induction fuel with
  | zero => intro n nd _ h; omega
  | succ fuel ih =>
    intro n nd hn hfuel
    refine ⟨_, getFiles_unfold hvalid hrank ext (fuel + 1) n nd hn hfuel, ?_⟩
    rw [Nat.add_sub_cancel]
    intro d hd
    simp only [List.mem_flatten, List.mem_map] at hd
    obtain ⟨l, ⟨c, hc, rfl⟩, hd⟩ := hd
    have hch : IsChild heap n c := ⟨nd, hn, hc⟩
    obtain ⟨cd, hcd, h | h⟩ := mem_contribution hd
    · have hr : rank c < fuel := by
        have := hrank n c hch
        omega
      obtain ⟨r, hr1, hr2⟩ := ih c cd hcd hr
      have hdr := h.2
      rw [hr1] at hdr
      exact Relation.TransGen.head hch (hr2 d hdr)
    · rw [h.2.2]
      exact Relation.TransGen.single hch

/-- Filtering by a non-empty extension commutes with the loop of `GetFiles`. -/
theorem getFilesLoop_filter (heap : List Node) (rec0 recE : Nat → Option (List Nat))
    (ext : String) (hne : ext ≠ "")
    (hrec : ∀ c s, rec0 c = some s → recE c = some (s.filter (hasExt heap ext))) :
    ∀ (cs files r : List Nat), getFilesLoop heap rec0 "" cs files = some r →
      getFilesLoop heap recE ext cs (files.filter (hasExt heap ext)) =
        some (r.filter (hasExt heap ext)) := by
  intro cs
  induction cs with
  | nil =>
    intro files r h
    simp only [getFilesLoop, Option.some.injEq] at h ⊢
    rw [h]
  | cons c rest ih =>
    intro files r h
    unfold getFilesLoop at h ⊢
    cases hc : heap[c]? with
    | none => simp [hc] at h
    | some cd =>
      simp only [hc] at h ⊢
      cases hdir : cd.Info.IsDir with
      | true =>
        simp only [hdir, if_true] at h ⊢
        cases h1 : rec0 c with
        | none => simp [h1] at h
        | some s =>
          simp only [h1] at h
          simp only [hrec c s h1]
          rw [← List.filter_append]
          exact ih _ _ h
      | false =>
        simp only [hdir, Bool.false_eq_true, if_false, true_or, if_true] at h ⊢
        by_cases hext : ext = cd.Info.Ext
        · have hyes : hasExt heap ext c = true := by simp [hasExt, hc, hext]
          have hcond : ext = "" ∨ ext = cd.Info.Ext := Or.inr hext
          simp only [hcond, if_true]
          have := ih _ _ h
          rw [List.filter_append] at this
          simpa [List.filter, hyes] using this
        · have hno : hasExt heap ext c = false := by
            simp [hasExt, hc]
            exact fun hc => hext hc.symm
          have hcond : ¬ (ext = "" ∨ ext = cd.Info.Ext) := by
            rintro (h1 | h1)
            · exact hne h1
            · exact hext h1
          simp only [hcond, if_false]
          have := ih _ _ h
          rw [List.filter_append] at this
          simpa [List.filter, hno] using this

theorem getFiles_filter (heap : List Node) (ext : String) (hne : ext ≠ "") :
    ∀ (fuel n : Nat) (r : List Nat), GetFiles heap fuel n "" = some r →
      GetFiles heap fuel n ext = some (r.filter (hasExt heap ext)) := by
  intro fuel
  induction fuel with
  | zero => intro n r h; simp [GetFiles] at h
  | succ fuel ih =>
    intro n r h
    cases hn : heap[n]? with
    | none => simp [GetFiles, hn] at h
    | some nd =>
      rw [getFiles_succ heap _ n _ nd hn] at h ⊢
      exact getFilesLoop_filter heap _ _ ext hne (fun c s hs => ih c s hs) _ [] _ h

/-- A way to check on a given heap that its `Children` edges form trees. -/
theorem isTreeHeap_of_check (heap : List Node) (rank : Nat → Nat)
    (h1 : ∀ e ∈ heap.enum, ∀ c ∈ e.2.Children, c < heap.length ∧ rank c < rank e.1)
    (h2 : ((heap.map Node.Children).flatten).Nodup) : IsTreeHeap heap rank := by
  refine ⟨?_, ?_, h2⟩
  · rintro m c ⟨md, hmd, hc⟩
    exact (h1 (m, md) (List.mk_mem_enum_iff_getElem?.2 hmd) c hc).1
  · rintro m c ⟨md, hmd, hc⟩
    exact (h1 (m, md) (List.mk_mem_enum_iff_getElem?.2 hmd) c hc).2

theorem filesAreLeaves_of_check (heap : List Node)
    (h : ∀ md ∈ heap, md.Info.IsDir = false → md.Children = []) : FilesAreLeaves heap := by
  intro m md hmd hdir
  exact h md (List.mem_iff_getElem?.2 ⟨m, hmd⟩) hdir

theorem scenario_isTreeHeap : IsTreeHeap scenarioHeap scenarioRank :=
  isTreeHeap_of_check scenarioHeap scenarioRank (by decide) (by decide)

theorem scenario_filesAreLeaves : FilesAreLeaves scenarioHeap :=
  filesAreLeaves_of_check scenarioHeap (by decide)

end DirectoryTree

namespace DirectoryTree

/-- When the parent directory of the root path is not among the walked paths,
`NewTree` returns the node of the root path, and that node has no `Parent`. -/
theorem NewTree_returns_root (os : OS) (root R : String) (es : List (String × OsFileInfo))
    (hAbs : os.Abs root = .ok R) (hWalk : os.Walk R = visits es)
    (hrange : ∀ m, (os.range m).Perm m) (hW : IsWalkOf R (es.map Prod.fst))
    (horphan : Dir R ∉ es.map Prod.fst) :
    ∃ r rd, (NewTree os root).result = some r ∧ (NewTree os root).err = none ∧
      (NewTree os root).heap[r]? = some rd ∧ rd.FullPath = R ∧ rd.Parent = none := by
  obtain ⟨st, hinv, hfull, hkeys, hN⟩ := NewTree_visits os root R es hAbs hWalk hW.once
  have hperm := hrange st.parents
  have hsome : ∃ r, (NewTree os root).result = some r := by
    rw [hN]
    simp only
    rw [linkLoop_result]
    cases hl : (List.filter (fun e => decide (mapGet st.parents (Dir e.1) = none))
        (os.range st.parents)).getLast? with
    | some e => exact ⟨e.2, rfl⟩
    | none =>
      exfalso
      rw [List.getLast?_eq_none_iff] at hl
      obtain ⟨⟨k, r⟩, hr, hk⟩ := List.mem_map.1 ((hkeys R).2 hW.root)
      simp only at hk
      subst hk
      have hmem : (k, r) ∈ List.filter (fun e => decide (mapGet st.parents (Dir e.1) = none))
          (os.range st.parents) := by
        rw [List.mem_filter, decide_eq_true_eq]
        refine ⟨hperm.symm.subset hr, (mapGet_eq_none_iff _ _).2 ?_⟩
        intro hc
        exact horphan ((hkeys _).1 hc)
      rw [hl] at hmem
      cases hmem
  obtain ⟨r, hr⟩ := hsome
  obtain ⟨M, hL⟩ := NewTree_linked os root R es hAbs hWalk hrange hW r hr
  obtain ⟨rd, hrd, hpar, hpath⟩ := linked_root hL
  exact ⟨r, rd, hr, by rw [hN], hrd, hpath, hpar⟩

end DirectoryTree

namespace DirectoryTree

/-- When the parent directory of the root path is itself among the walked paths
(as for the root path `/`, whose parent directory is `/`), every node finds a
parent entry and `NewTree` returns the nil node with a nil error, in every
order of the link loop. -/
theorem NewTree_nil_of_parent_walked (os : OS) (root R : String)
    (es : List (String × OsFileInfo)) (hAbs : os.Abs root = .ok R)
    (hWalk : os.Walk R = visits es) (hrange : ∀ m, (os.range m).Perm m)
    (hW : IsWalkOf R (es.map Prod.fst)) (hpar : Dir R ∈ es.map Prod.fst) :
    (NewTree os root).result = none ∧ (NewTree os root).err = none := by
  obtain ⟨st, hinv, hfull, hkeys, hN⟩ := NewTree_visits os root R es hAbs hWalk hW.once
  have hperm := hrange st.parents
  rw [hN]
  refine ⟨?_, rfl⟩
  simp only
  rw [linkLoop_result]
  have hnil : List.filter (fun e => decide (mapGet st.parents (Dir e.1) = none))
      (os.range st.parents) = [] := by
    rw [List.filter_eq_nil_iff]
    intro e he
    rw [decide_eq_true_eq, mapGet_eq_none_iff, not_not]
    have hk : e.1 ∈ es.map Prod.fst :=
      (hkeys _).1 (List.mem_map_of_mem Prod.fst (hperm.subset he))
    by_cases heR : e.1 = R
    · rw [heR]
      exact (hkeys _).2 hpar
    · exact (hkeys _).2 (hW.closed _ hk heR)
  rw [hnil]
  rfl

end DirectoryTree

namespace DirectoryTree

/-! ## The claims about `NewTree` -/

theorem scenario_isWalkOf : IsWalkOf "/root" (scenarioEntries.map Prod.fst) := by
  refine ⟨by decide, by decide, by decide, ?_⟩
  intro p hp
  simp only [scenarioEntries, List.map_cons, List.map_nil, List.mem_cons, List.mem_singleton,
    List.not_mem_nil, or_false] at hp
  rcases hp with rfl | rfl | rfl | rfl
  · exact ⟨0, by decide⟩
  · exact ⟨1, by decide⟩
  · exact ⟨1, by decide⟩
  · exact ⟨2, by decide⟩

theorem slash_isWalkOf : IsWalkOf "/" (slashEntries.map Prod.fst) := by
  refine ⟨by decide, by decide, by decide, ?_⟩
  intro p hp
  simp only [slashEntries, List.map_cons, List.map_nil, List.mem_cons, List.mem_singleton,
    List.not_mem_nil, or_false] at hp
  rcases hp with rfl | rfl
  · exact ⟨0, by decide⟩
  · exact ⟨1, by decide⟩

/-- C1, at the filesystem root: the walk of `/` reporting `/` and `/a` is a walk
of one root, each path once, and neither `filepath.Abs` nor the walk fails; yet
`NewTree` returns the nil node, and no node is left with an absent `Parent`:
the node of `/` is its own `Parent` and one of its own `Children`, because
`filepath.Dir("/")` is `/`. -/
theorem single_root_fails_at_slash :
    IsWalkOf "/" (slashEntries.map Prod.fst) ∧
    (NewTree slashOS "/").err = none ∧
    (NewTree slashOS "/").result = none ∧
    (NewTree slashOS "/").heap.map Node.FullPath = ["/", "/a"] ∧
    (NewTree slashOS "/").heap.map Node.Parent = [some 0, some 0] ∧
    (NewTree slashOS "/").heap.map Node.Children = [[0, 1], []] :=
  ⟨slash_isWalkOf, by decide, by decide, by decide, by decide, by decide⟩

/-- C2 (round trip): when `NewTree` returns a node for a walk of one root that
reports the paths `P`, each once, whatever the order of the link loop, the
paths on the nodes reachable from the returned node along `Children` edges are
exactly the paths of `P`, and two reachable nodes with the same path are the
same node. -/
theorem round_trip (os : OS) (root R : String) (es : List (String × OsFileInfo))
    (hAbs : os.Abs root = .ok R) (hWalk : os.Walk R = visits es)
    (hrange : ∀ m, (os.range m).Perm m) (hW : IsWalkOf R (es.map Prod.fst)) (r : Nat)
    (hres : (NewTree os root).result = some r) :
    (∀ p, p ∈ es.map Prod.fst ↔
      ∃ n nd, Reach (NewTree os root).heap r n ∧ (NewTree os root).heap[n]? = some nd ∧
        nd.FullPath = p) ∧
    (∀ n m nd md, Reach (NewTree os root).heap r n → Reach (NewTree os root).heap r m →
      (NewTree os root).heap[n]? = some nd → (NewTree os root).heap[m]? = some md →
      nd.FullPath = md.FullPath → n = m) := by
  obtain ⟨M, hL⟩ := NewTree_linked os root R es hAbs hWalk hrange hW r hres
  constructor
  · intro p
    constructor
    · intro hp
      obtain ⟨⟨k, n⟩, hn, hk⟩ := List.mem_map.1 ((hL.keys p).2 hp)
      simp only at hk
      subst hk
      obtain ⟨j, hj⟩ := hW.below _ hp
      obtain ⟨nd, hnd, hpath, -, -⟩ := hL.node _ hn
      exact ⟨n, nd, linked_reach hL hW j k n hn hj, hnd, hpath⟩
    · rintro ⟨n, nd, -, hnd, rfl⟩
      exact (hL.keys _).1 (List.mem_map_of_mem Prod.fst (hL.full n nd hnd))
  · intro n m nd md _ _ hn hm hpath
    have h1 := hL.full n nd hn
    have h2 := hL.full m md hm
    rw [hpath] at h1
    exact val_unique hL.keysNodup h1 h2

/-- Witness of C2 on the walk of `/root`. -/
theorem round_trip_witness :
    (∀ m, (scenarioOS.range m).Perm m) ∧
    IsWalkOf "/root" (scenarioEntries.map Prod.fst) ∧
    (NewTree scenarioOS "/root").result = some 0 ∧
    ((∀ p, p ∈ scenarioEntries.map Prod.fst ↔
      ∃ n nd, Reach (NewTree scenarioOS "/root").heap 0 n ∧
        (NewTree scenarioOS "/root").heap[n]? = some nd ∧ nd.FullPath = p) ∧
    (∀ n m nd md, Reach (NewTree scenarioOS "/root").heap 0 n →
      Reach (NewTree scenarioOS "/root").heap 0 m →
      (NewTree scenarioOS "/root").heap[n]? = some nd →
      (NewTree scenarioOS "/root").heap[m]? = some md →
      nd.FullPath = md.FullPath → n = m)) :=
  ⟨fun m => List.reverse_perm m, scenario_isWalkOf, by decide,
    round_trip scenarioOS "/root" "/root" scenarioEntries rfl rfl
      (fun m => List.reverse_perm m) scenario_isWalkOf 0 (by decide)⟩

/-- C3 (parent-child consistency): after `NewTree`, whatever the walk reported
and whatever the order of the link loop, a node `n` whose `Parent` is the node
`p` occurs exactly once in `p.Children`, occurs in the `Children` of no other
node, and `filepath.Dir(n.FullPath)` is `p.FullPath`. -/
theorem parent_child_consistency (os : OS) (root : String)
    (hrange : ∀ m, (os.range m).Perm m) (n p : Nat) (nd : Node)
    (hn : (NewTree os root).heap[n]? = some nd) (hp : nd.Parent = some p) :
    ∃ pd, (NewTree os root).heap[p]? = some pd ∧ pd.Children.count n = 1 ∧
      (∀ q qd, (NewTree os root).heap[q]? = some qd → q ≠ p → n ∉ qd.Children) ∧
      Dir nd.FullPath = pd.FullPath := by
  rcases NewTree_cases os root with ⟨e, -, hN⟩ | ⟨R, st, e, -, -, hinv, hN⟩ | ⟨R, st, -, -, hinv, hN⟩
  · rw [hN] at hn
    simp at hn
  · rw [hN] at hn
    simp only at hn
    rw [(hinv.blank n nd hn).2] at hp
    cases hp
  · rw [hN] at hn ⊢
    exact linked_parent_child hinv (hrange st.parents) none n p nd hn hp

/-- Witness of C3: the node of `/root/sub/b.go` and its parent, the node of
`/root/sub`. -/
theorem parent_child_consistency_witness :
    (∀ m, (scenarioOS.range m).Perm m) ∧
    (NewTree scenarioOS "/root").heap[3]? =
      some (Node.mk "/root/sub/b.go" (fileInfoFromInterface (fileEntry "b.go")) [] (some 2)) ∧
    ∃ pd, (NewTree scenarioOS "/root").heap[2]? = some pd ∧ pd.Children.count 3 = 1 ∧
      (∀ q qd, (NewTree scenarioOS "/root").heap[q]? = some qd → q ≠ 2 → 3 ∉ qd.Children) ∧
      Dir "/root/sub/b.go" = pd.FullPath :=
  ⟨fun m => List.reverse_perm m, by decide,
    parent_child_consistency scenarioOS "/root" (fun m => List.reverse_perm m) 3 2
      (Node.mk "/root/sub/b.go" (fileInfoFromInterface (fileEntry "b.go")) [] (some 2))
      (by decide) rfl⟩

/-- C4 (children characterisation): after `NewTree` on a walk that fails
nowhere and reports each path once, whatever the order of the link loop, the
`Children` of a node `m` are exactly the nodes `n` with
`filepath.Dir(n.FullPath) = m.FullPath`. -/
theorem children_characterisation (os : OS) (root R : String)
    (es : List (String × OsFileInfo)) (hAbs : os.Abs root = .ok R)
    (hWalk : os.Walk R = visits es) (hnd : (es.map Prod.fst).Nodup)
    (hrange : ∀ m, (os.range m).Perm m) (m : Nat) (md : Node)
    (hm : (NewTree os root).heap[m]? = some md) (n : Nat) :
    n ∈ md.Children ↔
      ∃ nd, (NewTree os root).heap[n]? = some nd ∧ Dir nd.FullPath = md.FullPath := by
  obtain ⟨st, hinv, hfull, -, hN⟩ := NewTree_visits os root R es hAbs hWalk hnd
  rw [hN] at hm ⊢
  exact linked_children hinv hfull (hrange st.parents) none m md hm n

/-- Witness of C4: the children of the node of `/root`, asked about the node of
`/root/sub`. -/
theorem children_characterisation_witness :
    (∀ m, (scenarioOS.range m).Perm m) ∧
    (scenarioEntries.map Prod.fst).Nodup ∧
    (NewTree scenarioOS "/root").heap[0]? =
      some (Node.mk "/root" (fileInfoFromInterface (dirEntry "root")) [2, 1] none) ∧
    (2 ∈ [2, 1] ↔
      ∃ nd, (NewTree scenarioOS "/root").heap[2]? = some nd ∧ Dir nd.FullPath = "/root") :=
  ⟨fun m => List.reverse_perm m, by decide, by decide,
    children_characterisation scenarioOS "/root" "/root" scenarioEntries rfl rfl (by decide)
      (fun m => List.reverse_perm m) 0
      (Node.mk "/root" (fileInfoFromInterface (dirEntry "root")) [2, 1] none) (by decide) 2⟩

/-- C5 (acyclic and connected): when `NewTree` returns a node `r` for a walk of
one root, whatever the order of the link loop: `r` has no `Parent`; following
`Parent` edges from any node reaches `r` after finitely many steps; following
one or more `Parent` edges, or one or more `Children` edges, from a node never
leads back to it, and no node is among its own `Children`; every node is
reached from `r` along `Children` edges. -/
theorem acyclic_connected (os : OS) (root R : String) (es : List (String × OsFileInfo))
    (hAbs : os.Abs root = .ok R) (hWalk : os.Walk R = visits es)
    (hrange : ∀ m, (os.range m).Perm m) (hW : IsWalkOf R (es.map Prod.fst)) (r : Nat)
    (hres : (NewTree os root).result = some r) :
    (∃ rd, (NewTree os root).heap[r]? = some rd ∧ rd.Parent = none) ∧
    (∀ n nd, (NewTree os root).heap[n]? = some nd →
      ∃ k, climb (NewTree os root).heap k n = some r) ∧
    (∀ n k, 0 < k → climb (NewTree os root).heap k n ≠ some n) ∧
    (∀ n, ¬ Relation.TransGen (IsChild (NewTree os root).heap) n n) ∧
    (∀ (n : Nat) (nd : Node), (NewTree os root).heap[n]? = some nd → n ∉ nd.Children) ∧
    (∀ n nd, (NewTree os root).heap[n]? = some nd → Reach (NewTree os root).heap r n) := by
  obtain ⟨M, hL⟩ := NewTree_linked os root R es hAbs hWalk hrange hW r hres
  have hcyc : ∀ n, ¬ Relation.TransGen (IsChild (NewTree os root).heap) n n := by
    intro n hc
    obtain ⟨k, hk, hcl⟩ := linked_transGen_climb hL hc
    exact linked_acyclic hL hW n k hk hcl
  refine ⟨?_, ?_, linked_acyclic hL hW, hcyc, ?_, ?_⟩
  · obtain ⟨rd, hrd, hpar, -⟩ := linked_root hL
    exact ⟨rd, hrd, hpar⟩
  · intro n nd hn
    have hM := hL.full n nd hn
    obtain ⟨j, hj⟩ := hW.below _ ((hL.keys _).1 (List.mem_map_of_mem Prod.fst hM))
    exact linked_climb_root hL hW j _ n hM hj
  · intro n nd hn hc
    exact hcyc n (Relation.TransGen.single ⟨nd, hn, hc⟩)
  · intro n nd hn
    have hM := hL.full n nd hn
    obtain ⟨j, hj⟩ := hW.below _ ((hL.keys _).1 (List.mem_map_of_mem Prod.fst hM))
    exact linked_reach hL hW j _ n hM hj

/-- Witness of C5 on the walk of `/root`. -/
theorem acyclic_connected_witness :
    (∀ m, (scenarioOS.range m).Perm m) ∧
    IsWalkOf "/root" (scenarioEntries.map Prod.fst) ∧
    (NewTree scenarioOS "/root").result = some 0 ∧
    ((∃ rd, (NewTree scenarioOS "/root").heap[0]? = some rd ∧ rd.Parent = none) ∧
    (∀ n nd, (NewTree scenarioOS "/root").heap[n]? = some nd →
      ∃ k, climb (NewTree scenarioOS "/root").heap k n = some 0) ∧
    (∀ n k, 0 < k → climb (NewTree scenarioOS "/root").heap k n ≠ some n) ∧
    (∀ n, ¬ Relation.TransGen (IsChild (NewTree scenarioOS "/root").heap) n n) ∧
    (∀ (n : Nat) (nd : Node), (NewTree scenarioOS "/root").heap[n]? = some nd →
      n ∉ nd.Children) ∧
    (∀ n nd, (NewTree scenarioOS "/root").heap[n]? = some nd →
      Reach (NewTree scenarioOS "/root").heap 0 n)) :=
  ⟨fun m => List.reverse_perm m, scenario_isWalkOf, by decide,
    acyclic_connected scenarioOS "/root" "/root" scenarioEntries rfl rfl
      (fun m => List.reverse_perm m) scenario_isWalkOf 0 (by decide)⟩

/-- C6, at the filesystem root: neither `filepath.Abs` nor the walk of `/`
fails, the node with `FullPath = "/"` exists, and `NewTree` returns the nil
node with a nil error: `filepath.Dir("/")` is `/`, which has an entry among the
walked paths, so no node is taken for the root. -/
theorem returned_root_nil_at_slash :
    slashOS.Abs "/" = .ok "/" ∧ slashOS.Walk "/" = visits slashEntries ∧
    Dir "/" = "/" ∧
    ((NewTree slashOS "/").heap[0]?).map Node.FullPath = some "/" ∧
    (NewTree slashOS "/").result = none ∧ (NewTree slashOS "/").err = none :=
  ⟨rfl, rfl, by decide, by decide, by decide, by decide⟩

end DirectoryTree

namespace DirectoryTree

/-! ## The claims about `GetFiles` -/

/-- C7 (empty filter): on a heap whose `Children` edges form trees and in which
only directory nodes have children, for every node `n`, `n.GetFiles("")`
returns (fuel above the rank of `n` is enough) a sequence without repetition
whose elements are exactly the proper descendants of `n` that are not
directories: each of them once, and no directory. -/
theorem empty_filter (heap : List Node) (rank : Nat → Nat) (hT : IsTreeHeap heap rank)
    (hleaf : FilesAreLeaves heap) (n : Nat) (nd : Node) (hn : heap[n]? = some nd)
    (fuel : Nat) (hfuel : rank n < fuel) :
    ∃ r, GetFiles heap fuel n "" = some r ∧ r.Nodup ∧
      (∀ d, d ∈ r ↔ Desc heap n d ∧ ∃ dd : Node, heap[d]? = some dd ∧ dd.Info.IsDir = false) ∧
      (∀ d, Desc heap n d → (∃ dd : Node, heap[d]? = some dd ∧ dd.Info.IsDir = false) →
        r.count d = 1) := by
  obtain ⟨r, hr, hnd, hmem⟩ := getFiles_spec hT hleaf "" fuel n nd hn hfuel
  have hiff : ∀ d, d ∈ r ↔
      Desc heap n d ∧ ∃ dd : Node, heap[d]? = some dd ∧ dd.Info.IsDir = false := by
    intro d
    rw [hmem d]
    constructor
    · rintro ⟨h1, dd, hdd, hdir, -⟩
      exact ⟨h1, dd, hdd, hdir⟩
    · rintro ⟨h1, dd, hdd, hdir⟩
      exact ⟨h1, dd, hdd, hdir, Or.inl rfl⟩
  exact ⟨r, hr, hnd, hiff, fun d h1 h2 => List.count_eq_one_of_mem hnd ((hiff d).2 ⟨h1, h2⟩)⟩

/-- Witness of C7: the root of the scenario, with fuel 3. -/
theorem empty_filter_witness :
    IsTreeHeap scenarioHeap scenarioRank ∧ FilesAreLeaves scenarioHeap ∧
    scenarioHeap[0]? =
      some (Node.mk "/root" (fileInfoFromInterface (dirEntry "root")) [2, 1] none) ∧
    scenarioRank 0 < 3 ∧
    ∃ r, GetFiles scenarioHeap 3 0 "" = some r ∧ r.Nodup ∧
      (∀ d, d ∈ r ↔ Desc scenarioHeap 0 d ∧
        ∃ dd : Node, scenarioHeap[d]? = some dd ∧ dd.Info.IsDir = false) ∧
      (∀ d, Desc scenarioHeap 0 d →
        (∃ dd : Node, scenarioHeap[d]? = some dd ∧ dd.Info.IsDir = false) → r.count d = 1) :=
  ⟨scenario_isTreeHeap, scenario_filesAreLeaves, by decide, by decide,
    empty_filter scenarioHeap scenarioRank scenario_isTreeHeap scenario_filesAreLeaves 0
      (Node.mk "/root" (fileInfoFromInterface (dirEntry "root")) [2, 1] none) (by decide) 3
      (by decide)⟩

/-- C8 (extension filter): on a heap whose `Children` edges form trees and in
which only directory nodes have children, for every node `n` and every
non-empty `ext`, `n.GetFiles(ext)` returns a sequence without repetition whose
elements are exactly the non-directory proper descendants of `n` with
`Info.Ext = ext`; and it is `n.GetFiles("")` with the entries of another
extension removed, the order kept. -/
theorem extension_filter (heap : List Node) (rank : Nat → Nat) (hT : IsTreeHeap heap rank)
    (hleaf : FilesAreLeaves heap) (n : Nat) (nd : Node) (hn : heap[n]? = some nd)
    (ext : String) (hne : ext ≠ "") (fuel : Nat) (hfuel : rank n < fuel) :
    ∃ r all, GetFiles heap fuel n ext = some r ∧ GetFiles heap fuel n "" = some all ∧
      r.Nodup ∧
      (∀ d, d ∈ r ↔ Desc heap n d ∧
        ∃ dd : Node, heap[d]? = some dd ∧ dd.Info.IsDir = false ∧ dd.Info.Ext = ext) ∧
      r = all.filter (hasExt heap ext) := by
  obtain ⟨r, hr, hnd, hmem⟩ := getFiles_spec hT hleaf ext fuel n nd hn hfuel
  obtain ⟨all, hall⟩ := getFiles_isSome hT.valid hT.ranked "" fuel n nd hn hfuel
  refine ⟨r, all, hr, hall, hnd, ?_, ?_⟩
  · intro d
    rw [hmem d]
    constructor
    · rintro ⟨h1, dd, hdd, hdir, h | h⟩
      · exact absurd h hne
      · exact ⟨h1, dd, hdd, hdir, h.symm⟩
    · rintro ⟨h1, dd, hdd, hdir, h⟩
      exact ⟨h1, dd, hdd, hdir, Or.inr h.symm⟩
  · have := getFiles_filter heap ext hne fuel n all hall
    rw [hr] at this
    exact Option.some.inj this

/-- Witness of C8: the root of the scenario and the filter `.go`. -/
theorem extension_filter_witness :
    IsTreeHeap scenarioHeap scenarioRank ∧ FilesAreLeaves scenarioHeap ∧
    scenarioHeap[0]? =
      some (Node.mk "/root" (fileInfoFromInterface (dirEntry "root")) [2, 1] none) ∧
    ".go" ≠ "" ∧ scenarioRank 0 < 3 ∧
    ∃ r all, GetFiles scenarioHeap 3 0 ".go" = some r ∧
      GetFiles scenarioHeap 3 0 "" = some all ∧ r.Nodup ∧
      (∀ d, d ∈ r ↔ Desc scenarioHeap 0 d ∧
        ∃ dd : Node, scenarioHeap[d]? = some dd ∧ dd.Info.IsDir = false ∧
          dd.Info.Ext = ".go") ∧
      r = all.filter (hasExt scenarioHeap ".go") :=
  ⟨scenario_isTreeHeap, scenario_filesAreLeaves, by decide, by decide, by decide,
    extension_filter scenarioHeap scenarioRank scenario_isTreeHeap scenario_filesAreLeaves 0
      (Node.mk "/root" (fileInfoFromInterface (dirEntry "root")) [2, 1] none) (by decide) ".go"
      (by decide) 3 (by decide)⟩

/-- C9 (result order): on a heap whose child pointers are valid and whose
`Children` edges have no cycle, for every node `n` and filter `ext`,
`n.GetFiles(ext)` is the concatenation, over `n.Children` in stored order, of
what each child contributes: `child.GetFiles(ext)` for a directory, `[child]`
for a non-directory that passes the filter, `[]` for one that does not. -/
theorem result_order (heap : List Node) (rank : Nat → Nat)
    (hvalid : ∀ m c, IsChild heap m c → c < heap.length)
    (hrank : ∀ m c, IsChild heap m c → rank c < rank m)
    (n : Nat) (nd : Node) (hn : heap[n]? = some nd) (ext : String)
    (fuel : Nat) (hfuel : rank n < fuel) :
    ∃ sub : Nat → List Nat,
      (∀ c ∈ nd.Children, ∀ cd : Node, heap[c]? = some cd → cd.Info.IsDir = true →
        GetFiles heap fuel c ext = some (sub c)) ∧
      GetFiles heap fuel n ext = some ((nd.Children.map (contribution heap ext sub)).flatten) := by
  obtain ⟨f, rfl⟩ : ∃ f, fuel = f + 1 := ⟨fuel - 1, by omega⟩
  refine ⟨fun c => (GetFiles heap f c ext).getD [], ?_, ?_⟩
  · intro c hc cd hcd _
    have hr : rank c < f := by
      have := hrank n c ⟨nd, hn, hc⟩
      omega
    obtain ⟨r, hr1⟩ := getFiles_isSome hvalid hrank ext f c cd hcd hr
    rw [getFiles_mono heap ext f c r hr1]
    simp only [hr1, Option.getD_some]
  · have := getFiles_unfold hvalid hrank ext (f + 1) n nd hn hfuel
    rw [Nat.add_sub_cancel] at this
    exact this

/-- Witness of C9: the root of the scenario and the filter `.go`. -/
theorem result_order_witness :
    (∀ m c, IsChild scenarioHeap m c → c < scenarioHeap.length) ∧
    (∀ m c, IsChild scenarioHeap m c → scenarioRank c < scenarioRank m) ∧
    scenarioHeap[0]? =
      some (Node.mk "/root" (fileInfoFromInterface (dirEntry "root")) [2, 1] none) ∧
    scenarioRank 0 < 3 ∧
    ∃ sub : Nat → List Nat,
      (∀ c ∈ [2, 1], ∀ cd : Node, scenarioHeap[c]? = some cd → cd.Info.IsDir = true →
        GetFiles scenarioHeap 3 c ".go" = some (sub c)) ∧
      GetFiles scenarioHeap 3 0 ".go" =
        some (([2, 1].map (contribution scenarioHeap ".go" sub)).flatten) :=
  ⟨scenario_isTreeHeap.valid, scenario_isTreeHeap.ranked, by decide, by decide,
    result_order scenarioHeap scenarioRank scenario_isTreeHeap.valid scenario_isTreeHeap.ranked 0
      (Node.mk "/root" (fileInfoFromInterface (dirEntry "root")) [2, 1] none) (by decide) ".go" 3
      (by decide)⟩

/-- C10 (root excluded): on a heap whose child pointers are valid and whose
`Children` edges have no cycle, for every node `n` and filter `ext`,
`n.GetFiles(ext)` returns a sequence that does not contain `n` and contains
only proper descendants of `n`; and a node without children yields the empty
sequence, whatever its own `Info`. -/
theorem root_excluded (heap : List Node) (rank : Nat → Nat)
    (hvalid : ∀ m c, IsChild heap m c → c < heap.length)
    (hrank : ∀ m c, IsChild heap m c → rank c < rank m)
    (n : Nat) (nd : Node) (hn : heap[n]? = some nd) (ext : String)
    (fuel : Nat) (hfuel : rank n < fuel) :
    (∃ r, GetFiles heap fuel n ext = some r ∧ n ∉ r ∧ ∀ d ∈ r, Desc heap n d) ∧
    (nd.Children = [] → ∀ f, GetFiles heap (f + 1) n ext = some []) := by
  constructor
  · obtain ⟨r, hr, hdesc⟩ := getFiles_desc hvalid hrank ext fuel n nd hn hfuel
    refine ⟨r, hr, fun hmem => ?_, hdesc⟩
    exact Nat.lt_irrefl _ (rank_lt_of_desc hrank (hdesc n hmem))
  · intro hnil f
    rw [getFiles_succ heap f n ext nd hn, hnil]
    rfl

/-- Witness of C10: the node of the file `/root/sub/b.go`, whose extension
matches the filter `.go`. -/
theorem root_excluded_witness :
    (∀ m c, IsChild scenarioHeap m c → c < scenarioHeap.length) ∧
    (∀ m c, IsChild scenarioHeap m c → scenarioRank c < scenarioRank m) ∧
    scenarioHeap[3]? =
      some (Node.mk "/root/sub/b.go" (fileInfoFromInterface (fileEntry "b.go")) [] (some 2)) ∧
    scenarioRank 3 < 1 ∧
    ((∃ r, GetFiles scenarioHeap 1 3 ".go" = some r ∧ 3 ∉ r ∧
      ∀ d ∈ r, Desc scenarioHeap 3 d) ∧
    (([] : List Nat) = [] → ∀ f, GetFiles scenarioHeap (f + 1) 3 ".go" = some [])) :=
  ⟨scenario_isTreeHeap.valid, scenario_isTreeHeap.ranked, by decide, by decide,
    root_excluded scenarioHeap scenarioRank scenario_isTreeHeap.valid
      scenario_isTreeHeap.ranked 3
      (Node.mk "/root/sub/b.go" (fileInfoFromInterface (fileEntry "b.go")) [] (some 2))
      (by decide) ".go" 1 (by decide)⟩

end DirectoryTree

namespace DirectoryTree

/-! ## The state after the walk, in closed form -/

theorem keysFrom_fst (n : Nat) (ps : List String) : (keysFrom n ps).map Prod.fst = ps := by
  induction ps generalizing n with
  | nil => rfl
  | cons p ps ih => simp [keysFrom, ih]

theorem mem_keysFrom (n : Nat) (ps : List String) (k : String) (v : Nat) :
    (k, v) ∈ keysFrom n ps ↔ n ≤ v ∧ ps[v - n]? = some k := by
  induction ps generalizing n with
  | nil => simp [keysFrom]
  | cons p ps ih =>
    simp only [keysFrom, List.mem_cons, Prod.mk.injEq, ih]
    constructor
    · rintro (⟨rfl, rfl⟩ | ⟨h1, h2⟩)
      · simp
      · refine ⟨by omega, ?_⟩
        have : v - n = (v - (n + 1)) + 1 := by omega
        rw [this, List.getElem?_cons_succ]
        exact h2
    · rintro ⟨h1, h2⟩
      by_cases hv : v = n
      · subst hv
        simp only [Nat.sub_self, List.getElem?_cons_zero, Option.some.injEq] at h2
        exact Or.inl ⟨h2.symm, rfl⟩
      · right
        refine ⟨by omega, ?_⟩
        have : v - n = (v - (n + 1)) + 1 := by omega
        rw [this, List.getElem?_cons_succ] at h2
        exact h2

/-- The heap and the map after a walk without failures and without repeated
paths. -/
theorem walk_state (es : List (String × OsFileInfo)) :
    ∀ (st : Build), (es.map Prod.fst).Nodup →
    (∀ p ∈ es.map Prod.fst, p ∉ st.parents.map Prod.fst) →
    filepathWalk (visits es) st =
      ({ heap := st.heap ++ es.map newNode,
         parents := st.parents ++ keysFrom st.heap.length (es.map Prod.fst) }, none) := by
  induction es with
  | nil => intro st _ _; simp [visits, filepathWalk, keysFrom]
  | cons e t ih =>
    intro st hnd hfresh
    rw [List.map_cons, List.nodup_cons] at hnd
    have hstep : filepathWalk (visits (e :: t)) st =
        filepathWalk (visits t) (walkFunc st (WalkCall.visit e.1 e.2)).1 := by
      simp [visits, filepathWalk, walkFunc]
    have hnew : e.1 ∉ st.parents.map Prod.fst := hfresh _ (by simp)
    have hpar : (walkFunc st (WalkCall.visit e.1 e.2)).1.parents =
        st.parents ++ [(e.1, st.heap.length)] := mapSet_of_not_mem _ hnew
    have hheap : (walkFunc st (WalkCall.visit e.1 e.2)).1.heap = st.heap ++ [newNode e] := rfl
    rw [hstep, ih _ hnd.2]
    · rw [hpar, hheap]
      simp [keysFrom, List.append_assoc]
    · intro p hp hc
      rw [hpar, List.map_append, List.mem_append] at hc
      rcases hc with hc | hc
      · exact hfresh p (by simp [List.mem_map] at hp ⊢; exact Or.inr hp) hc
      · simp only [List.map_cons, List.map_nil, List.mem_singleton] at hc
        exact hnd.1 (hc ▸ hp)

/-- The heap after a walk without failures, repeated paths or not. -/
theorem walk_heap (es : List (String × OsFileInfo)) :
    ∀ (st : Build), (filepathWalk (visits es) st).1.heap = st.heap ++ es.map newNode ∧
      (filepathWalk (visits es) st).2 = none := by
  induction es with
  | nil => intro st; simp [visits, filepathWalk]
  | cons e t ih =>
    intro st
    have hstep : filepathWalk (visits (e :: t)) st =
        filepathWalk (visits t) (walkFunc st (WalkCall.visit e.1 e.2)).1 := by
      simp [visits, filepathWalk, walkFunc]
    have hheap : (walkFunc st (WalkCall.visit e.1 e.2)).1.heap = st.heap ++ [newNode e] := rfl
    rw [hstep]
    refine ⟨?_, (ih _).2⟩
    rw [(ih _).1, hheap]
    simp

/-- The run of `NewTree` on a walk without failures and without repeated paths:
the link loop on the heap of fresh nodes and the map of their paths. -/
theorem NewTree_explicit (os : OS) (root R : String) (es : List (String × OsFileInfo))
    (hAbs : os.Abs root = .ok R) (hWalk : os.Walk R = visits es)
    (hnd : (es.map Prod.fst).Nodup) :
    NewTree os root =
      { heap := ((os.range (keysFrom 0 (es.map Prod.fst))).foldl
          (linkStep (keysFrom 0 (es.map Prod.fst))) (es.map newNode, none)).1
        result := ((os.range (keysFrom 0 (es.map Prod.fst))).foldl
          (linkStep (keysFrom 0 (es.map Prod.fst))) (es.map newNode, none)).2
        err := none } := by
  have := walk_state es { heap := [], parents := [] } hnd (by simp)
  simp only [List.nil_append, List.length_nil] at this
  simp [NewTree, hAbs, hWalk, this]

/-- The invariant of the walk, for the closed form of its final state. -/
theorem walkInv_explicit (es : List (String × OsFileInfo)) (hnd : (es.map Prod.fst).Nodup) :
    WalkInv { heap := es.map newNode, parents := keysFrom 0 (es.map Prod.fst) } := by
  have h := walkInv_filepathWalk (visits es) walkInv_empty
  rw [walk_state es { heap := [], parents := [] } hnd (by simp)] at h
  simpa using h

end DirectoryTree

namespace DirectoryTree

/-! ## The extension and the errors -/

theorem extScan_no_dot (s acc : List Char) (h : '.' ∉ s) : extScan s acc = [] := by
  induction s generalizing acc with
  | nil => rfl
  | cons c rest ih =>
    rw [List.mem_cons, not_or] at h
    unfold extScan
    by_cases hs : IsPathSeparator c = true
    · simp [hs]
    · have hc : ¬ c = '.' := fun hc => h.1 hc.symm
      simp only [hs, hc, if_false]
      exact ih _ h.2

theorem extScan_dot (s rest acc : List Char) (hdot : '.' ∉ s) (hsep : '/' ∉ s) :
    extScan (s ++ '.' :: rest) acc = '.' :: (s.reverse ++ acc) := by
  induction s generalizing acc with
  | nil => simp [extScan, IsPathSeparator]
  | cons c s ih =>
    rw [List.mem_cons, not_or] at hdot hsep
    have hs : ¬ IsPathSeparator c = true := by
      simp only [IsPathSeparator, beq_iff_eq]
      exact fun hc => hsep.1 hc.symm
    have hc : ¬ c = '.' := fun hc => hdot.1 hc.symm
    rw [List.cons_append]
    unfold extScan
    simp only [hs, hc, if_false]
    rw [ih _ hdot.2 hsep.2]
    simp

/-- C11 (extension derivation): for every entry whose name holds no path
separator, the `Ext` that `fileInfoFromInterface` produces is empty when the
name has no dot, and is the part of the name from its last dot to the end, the
dot included, when it has one; `archive.tar.gz` gives `.gz`, `README` gives the
empty string and `.gitignore` gives `.gitignore`. -/
theorem extension_derivation (v : OsFileInfo) (hsep : '/' ∉ v.Name.data) :
    ('.' ∉ v.Name.data → (fileInfoFromInterface v).Ext = "") ∧
    (∀ pre suf : List Char, v.Name.data = pre ++ '.' :: suf → '.' ∉ suf →
      (fileInfoFromInterface v).Ext = String.mk ('.' :: suf)) ∧
    (fileInfoFromInterface (fileEntry "archive.tar.gz")).Ext = ".gz" ∧
    (fileInfoFromInterface (fileEntry "README")).Ext = "" ∧
    (fileInfoFromInterface (fileEntry ".gitignore")).Ext = ".gitignore" := by
  refine ⟨?_, ?_, by decide, by decide, by decide⟩
  · intro hdot
    show String.mk (extScan v.Name.data.reverse []) = ""
    rw [extScan_no_dot _ _ (by simpa using hdot)]
  · intro pre suf hname hdot
    show String.mk (extScan v.Name.data.reverse []) = String.mk ('.' :: suf)
    have hsuf : '/' ∉ suf := by
      intro hc
      apply hsep
      rw [hname]
      simp [hc]
    rw [hname, List.reverse_append, List.reverse_cons, List.append_assoc, List.singleton_append,
      extScan_dot _ _ _ (by simpa using hdot) (by simpa using hsuf)]
    simp

/-- Witness of C11: the name `archive.tar.gz`, split at its last dot. -/
theorem extension_derivation_witness :
    '/' ∉ (fileEntry "archive.tar.gz").Name.data ∧
    (('.' ∉ (fileEntry "archive.tar.gz").Name.data →
      (fileInfoFromInterface (fileEntry "archive.tar.gz")).Ext = "") ∧
    (∀ pre suf : List Char, (fileEntry "archive.tar.gz").Name.data = pre ++ '.' :: suf →
      '.' ∉ suf →
      (fileInfoFromInterface (fileEntry "archive.tar.gz")).Ext = String.mk ('.' :: suf)) ∧
    (fileInfoFromInterface (fileEntry "archive.tar.gz")).Ext = ".gz" ∧
    (fileInfoFromInterface (fileEntry "README")).Ext = "" ∧
    (fileInfoFromInterface (fileEntry ".gitignore")).Ext = ".gitignore") :=
  ⟨by decide, extension_derivation (fileEntry "archive.tar.gz") (by decide)⟩

theorem walk_err_iff (calls : List WalkCall) :
    ∀ st : Build, (filepathWalk calls st).2 ≠ none ↔ ∃ p e, WalkCall.fault p e ∈ calls := by
  induction calls with
  | nil => intro st; simp [filepathWalk]
  | cons c rest ih =>
    intro st
    cases c with
    | visit p i =>
      have hstep : filepathWalk (WalkCall.visit p i :: rest) st =
          filepathWalk rest (walkFunc st (WalkCall.visit p i)).1 := by
        simp [filepathWalk, walkFunc]
      rw [hstep, ih]
      simp
    | fault p e =>
      have hstep : filepathWalk (WalkCall.fault p e :: rest) st = (st, some e) := by
        simp [filepathWalk, walkFunc]
      rw [hstep]
      simp only [ne_eq, reduceCtorEq, not_false_eq_true, List.mem_cons, true_iff]
      exact ⟨p, e, Or.inl rfl⟩

theorem walk_append_fault (pre : List (String × OsFileInfo)) (p : String) (e : Error)
    (post : List WalkCall) :
    ∀ st : Build, filepathWalk (visits pre ++ WalkCall.fault p e :: post) st =
      ((filepathWalk (visits pre) st).1, some e) := by
  induction pre with
  | nil => intro st; simp [visits, filepathWalk, walkFunc]
  | cons a t ih =>
    intro st
    have h1 : filepathWalk (visits (a :: t) ++ WalkCall.fault p e :: post) st =
        filepathWalk (visits t ++ WalkCall.fault p e :: post)
          (walkFunc st (WalkCall.visit a.1 a.2)).1 := by
      simp [visits, filepathWalk, walkFunc]
    have h2 : filepathWalk (visits (a :: t)) st =
        filepathWalk (visits t) (walkFunc st (WalkCall.visit a.1 a.2)).1 := by
      simp [visits, filepathWalk, walkFunc]
    rw [h1, h2, ih]

/-- C12 (errors): `NewTree` returns a non-nil error exactly when `filepath.Abs`
fails or the walk reports a failure on some entry.  When `filepath.Abs` fails
its error is returned, with the nil node.  When the walk reports the entries
`pre` and then a failure `e`, the error returned is `e`, the node returned is
nil, and the nodes allocated are those of `pre` alone, unlinked: the walk has
stopped at the first failing entry, whatever was walked before it.  In every
case a non-nil error comes with the nil node. -/
theorem errors_propagated (os : OS) (root : String) :
    ((NewTree os root).err ≠ none ↔
      (∃ e, os.Abs root = .error e) ∨
      ∃ R, os.Abs root = .ok R ∧ ∃ p e, WalkCall.fault p e ∈ os.Walk R) ∧
    (∀ e, os.Abs root = .error e →
      NewTree os root = { heap := [], result := none, err := some e }) ∧
    (∀ (R : String) (pre : List (String × OsFileInfo)) (p : String) (e : Error)
      (post : List WalkCall), os.Abs root = .ok R →
      os.Walk R = visits pre ++ WalkCall.fault p e :: post →
      NewTree os root = { heap := pre.map newNode, result := none, err := some e }) ∧
    ((NewTree os root).err ≠ none → (NewTree os root).result = none) := by
  refine ⟨?_, ?_, ?_, ?_⟩
  · rcases NewTree_cases os root with
      ⟨e, hA, hN⟩ | ⟨R, st, e, hA, hw, -, hN⟩ | ⟨R, st, hA, hw, -, hN⟩
    · rw [hN]
      simp [hA]
    · have := (walk_err_iff (os.Walk R) { heap := [], parents := [] }).1 (by rw [hw]; simp)
      rw [hN]
      simp only [ne_eq, reduceCtorEq, not_false_eq_true, true_iff]
      exact Or.inr ⟨R, hA, this⟩
    · rw [hN]
      constructor
      · intro h
        exact absurd rfl h
      · rintro (⟨e, he⟩ | ⟨R1, hA1, p, e, hmem⟩)
        · rw [hA] at he
          cases he
        · exfalso
          rw [hA] at hA1
          cases hA1
          have := (walk_err_iff (os.Walk R) { heap := [], parents := [] }).2 ⟨p, e, hmem⟩
          rw [hw] at this
          exact this rfl
  · intro e hA
    simp [NewTree, hA]
  · intro R pre p e post hA hW
    have hw := walk_append_fault pre p e post { heap := [], parents := [] }
    have hh := (walk_heap pre { heap := [], parents := [] }).1
    simp only [List.nil_append] at hh
    simp [NewTree, hA, hW, hw, hh]
  · intro herr
    rcases NewTree_cases os root with
      ⟨e, -, hN⟩ | ⟨R, st, e, -, -, -, hN⟩ | ⟨R, st, -, -, -, hN⟩
    · rw [hN]
    · rw [hN]
    · rw [hN] at herr
      exact absurd rfl herr

/-- Witness of C12: the walk of `/root` that fails on `/root/sub`. -/
theorem errors_propagated_witness :
    deniedOS.Abs "/root" = .ok "/root" ∧
    deniedOS.Walk "/root" =
      visits [("/root", dirEntry "root"), ("/root/a.txt", fileEntry "a.txt")] ++
        WalkCall.fault "/root/sub" "permission denied" ::
          [WalkCall.visit "/root/sub/b.go" (fileEntry "b.go")] ∧
    NewTree deniedOS "/root" =
      { heap := [newNode ("/root", dirEntry "root"), newNode ("/root/a.txt", fileEntry "a.txt")],
        result := none, err := some "permission denied" } :=
  ⟨rfl, rfl,
    (errors_propagated deniedOS "/root").2.2.1 "/root"
      [("/root", dirEntry "root"), ("/root/a.txt", fileEntry "a.txt")] "/root/sub"
      "permission denied" [WalkCall.visit "/root/sub/b.go" (fileEntry "b.go")] rfl rfl⟩

end DirectoryTree

namespace DirectoryTree

/-! ## Sibling order, materialisation and frame -/

theorem keysFrom_snd_pairwise (n : Nat) (ps : List String) :
    ((keysFrom n ps).map Prod.snd).Pairwise (fun a b => a < b) := by
  induction ps generalizing n with
  | nil => simp [keysFrom]
  | cons p ps ih =>
    simp only [keysFrom, List.map_cons, List.pairwise_cons]
    refine ⟨?_, ih (n + 1)⟩
    intro v hv
    obtain ⟨⟨k, v1⟩, hmem, hv1⟩ := List.mem_map.1 hv
    simp only at hv1
    subst hv1
    have := ((mem_keysFrom (n + 1) ps k v1).1 hmem).1
    omega

theorem linkLoop_length (M : List (String × Nat)) (L : List (String × Nat)) :
    ∀ (H : List Node) (res : Option Nat),
      (L.foldl (linkStep M) (H, res)).1.length = H.length := by
  induction L with
  | nil => intro H res; rfl
  | cons a t ih =>
    intro H res
    rw [List.foldl_cons]
    rw [show linkStep M (H, res) a =
      ((linkStep M (H, res) a).1, (linkStep M (H, res) a).2) from rfl, ih]
    cases hg : mapGet M (Dir a.1) <;> simp [linkStep, hg, appendChild, setParent]

/-- Every node of the heap of fresh nodes is in the map, under its path. -/
theorem explicit_full (es : List (String × OsFileInfo)) (i : Nat) (nd : Node)
    (h : (es.map newNode)[i]? = some nd) :
    (nd.FullPath, i) ∈ keysFrom 0 (es.map Prod.fst) ∧
    ∃ e, es[i]? = some e ∧ nd = newNode e := by
  rw [List.getElem?_map] at h
  cases he : es[i]? with
  | none => rw [he] at h; cases h
  | some e =>
    rw [he] at h
    simp only [Option.map_some', Option.some.injEq] at h
    subst h
    refine ⟨?_, e, rfl, rfl⟩
    rw [mem_keysFrom]
    refine ⟨Nat.zero_le _, ?_⟩
    rw [Nat.sub_zero, List.getElem?_map, he]
    rfl

/-- C13, as stated, fails on the scenario when the map is enumerated from its
last entry to its first: the walk reports `/root/a.txt` (node 1) before
`/root/sub` (node 2), and the children of `/root` are stored as `[2, 1]`. -/
theorem sibling_order_counterexample :
    (NewTree scenarioOS "/root").heap.map Node.FullPath = scenarioEntries.map Prod.fst ∧
    ((NewTree scenarioOS "/root").heap[0]?).map Node.Children = some [2, 1] ∧
    ¬ InWalkOrder (NewTree scenarioOS "/root").heap := by
  refine ⟨by decide, by decide, ?_⟩
  intro h
  have h0 := h 0 (Node.mk "/root" (fileInfoFromInterface (dirEntry "root")) [2, 1] none)
    (by decide)
  revert h0
  decide

/-- C13, amended: after `NewTree` on a walk that fails nowhere and reports each
path once, the `Children` of a node are stored in the order in which the link
loop enumerates the map: they are the nodes of the entries with
`filepath.Dir(path) = FullPath`, in that order.  When the map is enumerated in
the order of insertion, this is the walk-discovery order. -/
theorem sibling_order_amended (os : OS) (root R : String) (es : List (String × OsFileInfo))
    (hAbs : os.Abs root = .ok R) (hWalk : os.Walk R = visits es)
    (hnd : (es.map Prod.fst).Nodup) (m : Nat) (md : Node)
    (hm : (NewTree os root).heap[m]? = some md) :
    md.Children =
      ((os.range (keysFrom 0 (es.map Prod.fst))).filter
        (fun e => decide (Dir e.1 = md.FullPath))).map Prod.snd ∧
    (os.range (keysFrom 0 (es.map Prod.fst)) = keysFrom 0 (es.map Prod.fst) →
      md.Children.Pairwise (fun a b => a < b)) := by
  have hinv := walkInv_explicit es hnd
  rw [NewTree_explicit os root R es hAbs hWalk hnd] at hm
  simp only at hm
  obtain ⟨nd0, hn0, hpath, -, hch, -⟩ := linked_node hinv _ none m md hm
  simp only at hn0 hch
  have hmem := (explicit_full es m nd0 hn0).1
  rw [← hpath] at hmem
  have hkids : md.Children =
      ((os.range (keysFrom 0 (es.map Prod.fst))).filter
        (fun e => decide (Dir e.1 = md.FullPath))).map Prod.snd := by
    rw [hch]
    unfold kids
    congr 1
    apply List.filter_congr
    intro e _
    apply decide_eq_decide.2
    constructor
    · intro hg
      exact key_unique hinv (mem_of_mapGet hg) hmem
    · intro hd
      rw [hd]
      exact mapGet_of_mem hinv.keys hmem
  refine ⟨hkids, fun hid => ?_⟩
  rw [hkids, hid]
  exact (keysFrom_snd_pairwise 0 _).sublist ((List.filter_sublist _).map Prod.snd)

/-- Witness of C13 amended: the children of `/root` in the scenario, where the
map is enumerated from its last entry to its first. -/
theorem sibling_order_amended_witness :
    (scenarioEntries.map Prod.fst).Nodup ∧
    (NewTree scenarioOS "/root").heap[0]? =
      some (Node.mk "/root" (fileInfoFromInterface (dirEntry "root")) [2, 1] none) ∧
    [2, 1] =
      ((scenarioOS.range (keysFrom 0 (scenarioEntries.map Prod.fst))).filter
        (fun e => decide (Dir e.1 = "/root"))).map Prod.snd ∧
    (scenarioOS.range (keysFrom 0 (scenarioEntries.map Prod.fst)) =
        keysFrom 0 (scenarioEntries.map Prod.fst) →
      ([2, 1] : List Nat).Pairwise (fun a b => a < b)) :=
  ⟨by decide, by decide,
    sibling_order_amended scenarioOS "/root" "/root" scenarioEntries rfl rfl (by decide) 0
      (Node.mk "/root" (fileInfoFromInterface (dirEntry "root")) [2, 1] none) (by decide)⟩

/-- C18 (materialisation and frame): on a walk that fails nowhere and reports
each path once, the walk allocates one node per entry, node `i` for entry `i`,
with `FullPath` the path, `Info` the extraction of the entry, no children and
no parent, and stores it in the map under the path; after the link loop, in
any order, the heap has the same nodes and node `i` still has that `FullPath`
and that `Info`, field by field. -/
theorem materialisation (os : OS) (root R : String) (es : List (String × OsFileInfo))
    (hAbs : os.Abs root = .ok R) (hWalk : os.Walk R = visits es)
    (hnd : (es.map Prod.fst).Nodup) :
    (filepathWalk (os.Walk R) { heap := [], parents := [] }).1.heap = es.map newNode ∧
    (∀ (i : Nat) (e : String × OsFileInfo), es[i]? = some e →
      mapGet (filepathWalk (os.Walk R) { heap := [], parents := [] }).1.parents e.1 = some i) ∧
    (NewTree os root).heap.length = es.length ∧
    (∀ (i : Nat) (e : String × OsFileInfo), es[i]? = some e →
      ∃ nd, (NewTree os root).heap[i]? = some nd ∧ nd.FullPath = e.1 ∧
        nd.Info = fileInfoFromInterface e.2 ∧
        nd.Info.Name = e.2.Name ∧ nd.Info.Size = e.2.Size ∧ nd.Info.Mode = e.2.Mode ∧
        nd.Info.ModTime = e.2.ModTime ∧ nd.Info.IsDir = e.2.IsDir ∧
        nd.Info.Ext = Ext e.2.Name) := by
  have hinv := walkInv_explicit es hnd
  have hst := walk_state es { heap := [], parents := [] } hnd (by simp)
  simp only [List.nil_append, List.length_nil] at hst
  have hget : ∀ (i : Nat) (e : String × OsFileInfo), es[i]? = some e →
      (es.map newNode)[i]? = some (newNode e) := by
    intro i e he
    rw [List.getElem?_map, he]
    rfl
  refine ⟨by rw [hWalk, hst], ?_, ?_, ?_⟩
  · intro i e he
    rw [hWalk, hst]
    exact mapGet_of_mem hinv.keys (explicit_full es i _ (hget i e he)).1
  · rw [NewTree_explicit os root R es hAbs hWalk hnd]
    simp only
    rw [linkLoop_length]
    simp
  · intro i e he
    rw [NewTree_explicit os root R es hAbs hWalk hnd]
    obtain ⟨nd, hn⟩ := @linked_node_of_heap
      { heap := es.map newNode, parents := keysFrom 0 (es.map Prod.fst) }
      (os.range (keysFrom 0 (es.map Prod.fst))) none i (newNode e) (hget i e he)
    obtain ⟨nd0, hn0, hpath, hinfo, -, -⟩ := linked_node hinv _ none i nd hn
    simp only at hn0
    rw [hget i e he] at hn0
    cases hn0
    refine ⟨nd, hn, hpath, hinfo, ?_, ?_, ?_, ?_, ?_, ?_⟩ <;> rw [hinfo] <;> rfl

/-- Witness of C18: the entry of `/root/sub/b.go` in the scenario. -/
theorem materialisation_witness :
    (scenarioEntries.map Prod.fst).Nodup ∧
    (filepathWalk (scenarioOS.Walk "/root") { heap := [], parents := [] }).1.heap =
      scenarioEntries.map newNode ∧
    mapGet (filepathWalk (scenarioOS.Walk "/root") { heap := [], parents := [] }).1.parents
      "/root/sub/b.go" = some 3 ∧
    ∃ nd, (NewTree scenarioOS "/root").heap[3]? = some nd ∧ nd.FullPath = "/root/sub/b.go" ∧
      nd.Info = fileInfoFromInterface (fileEntry "b.go") ∧ nd.Info.Ext = ".go" :=
  have h := materialisation scenarioOS "/root" "/root" scenarioEntries rfl rfl (by decide)
  ⟨by decide, h.1, h.2.1 3 ("/root/sub/b.go", fileEntry "b.go") (by decide),
    by
      obtain ⟨nd, h1, h2, h3, -, -, -, -, -, h4⟩ :=
        h.2.2.2 3 ("/root/sub/b.go", fileEntry "b.go") (by decide)
      exact ⟨nd, h1, h2, h3, h4.trans (by decide)⟩⟩

end DirectoryTree

namespace DirectoryTree

/-! ## The order of the link loop -/

theorem mapGet_keysFrom_none (ps : List String) (k : String) :
    mapGet (keysFrom 0 ps) k = none ↔ k ∉ ps := by
  rw [mapGet_eq_none_iff, keysFrom_fst]

/-- With one parentless path, the link loop returns its node in every order. -/
theorem result_of_single (es : List (String × OsFileInfo)) (hnd : (es.map Prod.fst).Nodup)
    (p : String) (v : Nat) (hv : (p, v) ∈ keysFrom 0 (es.map Prod.fst))
    (hp : Dir p ∉ es.map Prod.fst)
    (huniq : ∀ q, q ∈ es.map Prod.fst → Dir q ∉ es.map Prod.fst → q = p)
    (L : List (String × Nat)) (hperm : L.Perm (keysFrom 0 (es.map Prod.fst))) :
    (L.foldl (linkStep (keysFrom 0 (es.map Prod.fst))) (es.map newNode, none)).2 = some v := by
  have hinv := walkInv_explicit es hnd
  rw [linkLoop_result]
  have hin : (p, v) ∈ List.filter
      (fun e => decide (mapGet (keysFrom 0 (es.map Prod.fst)) (Dir e.1) = none)) L := by
    rw [List.mem_filter, decide_eq_true_eq]
    exact ⟨hperm.symm.subset hv, (mapGet_keysFrom_none _ _).2 hp⟩
  cases hl : (List.filter
      (fun e => decide (mapGet (keysFrom 0 (es.map Prod.fst)) (Dir e.1) = none)) L).getLast? with
  | none =>
    rw [List.getLast?_eq_none_iff] at hl
    rw [hl] at hin
    cases hin
  | some e =>
    have hmem := List.mem_of_getLast?_eq_some hl
    rw [List.mem_filter, decide_eq_true_eq] at hmem
    have heM := hperm.subset hmem.1
    have hk : e.1 ∈ es.map Prod.fst := by
      have := List.mem_map_of_mem Prod.fst heM
      rwa [keysFrom_fst] at this
    have he1 : e.1 = p := huniq _ hk ((mapGet_keysFrom_none _ _).1 hmem.2)
    have heM1 : (p, e.2) ∈ keysFrom 0 (es.map Prod.fst) := by
      rw [← he1]
      exact heM
    have : e.2 = v := val_unique hinv.keys heM1 hv
    simp only [this]

/-- C16 (order independence of linking): two runs of `NewTree` on the same walk,
which fails nowhere, reports each path once and has a single path whose parent
directory is not reported, with two orders of the link loop, return the same
node, have the same nodes, and give every node the same `Parent` and `Children`
sequences that are permutations of each other, each child once. -/
theorem order_independence (os1 os2 : OS) (root R : String) (es : List (String × OsFileInfo))
    (hAbs1 : os1.Abs root = .ok R) (hAbs2 : os2.Abs root = .ok R)
    (hWalk1 : os1.Walk R = visits es) (hWalk2 : os2.Walk R = visits es)
    (hnd : (es.map Prod.fst).Nodup)
    (hrange1 : ∀ m, (os1.range m).Perm m) (hrange2 : ∀ m, (os2.range m).Perm m)
    (hsingle : ∃! p, p ∈ es.map Prod.fst ∧ Dir p ∉ es.map Prod.fst) :
    (∃ r, (NewTree os1 root).result = some r ∧ (NewTree os2 root).result = some r) ∧
    (NewTree os1 root).heap.length = (NewTree os2 root).heap.length ∧
    (∀ (i : Nat) (nd1 : Node), (NewTree os1 root).heap[i]? = some nd1 →
      ∃ nd2, (NewTree os2 root).heap[i]? = some nd2 ∧
        nd1.FullPath = nd2.FullPath ∧ nd1.Info = nd2.Info ∧
        nd1.Parent = nd2.Parent ∧ nd1.Children.Perm nd2.Children ∧
        nd1.Children.Nodup ∧ nd2.Children.Nodup) := by
  have hinv := walkInv_explicit es hnd
  have hp1 := hrange1 (keysFrom 0 (es.map Prod.fst))
  have hp2 := hrange2 (keysFrom 0 (es.map Prod.fst))
  have hn1 := nodup_snd_of_perm hinv hp1
  have hn2 := nodup_snd_of_perm hinv hp2
  rw [NewTree_explicit os1 root R es hAbs1 hWalk1 hnd,
    NewTree_explicit os2 root R es hAbs2 hWalk2 hnd]
  simp only
  refine ⟨?_, ?_, ?_⟩
  · obtain ⟨p, ⟨hp, hdir⟩, huniq⟩ := hsingle
    have hk : p ∈ (keysFrom 0 (es.map Prod.fst)).map Prod.fst := by
      rw [keysFrom_fst]
      exact hp
    obtain ⟨⟨k, v⟩, hv, hkv⟩ := List.mem_map.1 hk
    simp only at hkv
    subst hkv
    have hu : ∀ q, q ∈ es.map Prod.fst → Dir q ∉ es.map Prod.fst → q = k :=
      fun q h1 h2 => huniq q ⟨h1, h2⟩
    exact ⟨v, result_of_single es hnd k v hv hdir hu _ hp1,
      result_of_single es hnd k v hv hdir hu _ hp2⟩
  · rw [linkLoop_length, linkLoop_length]
  · intro i nd1 h1
    obtain ⟨nd0, hn0, hpath1, hinfo1, hch1, hpar1⟩ := linked_node hinv _ none i nd1 h1
    obtain ⟨nd2, h2⟩ := @linked_node_of_heap
      { heap := es.map newNode, parents := keysFrom 0 (es.map Prod.fst) }
      (os2.range (keysFrom 0 (es.map Prod.fst))) none i nd0 hn0
    obtain ⟨nd0a, hn0a, hpath2, hinfo2, hch2, hpar2⟩ := linked_node hinv _ none i nd2 h2
    rw [hn0] at hn0a
    cases hn0a
    have hmem := (explicit_full es i nd0 hn0).1
    refine ⟨nd2, h2, hpath1.trans hpath2.symm, hinfo1.trans hinfo2.symm, ?_, ?_, ?_, ?_⟩
    · rw [hpar1, hpar2, par_of_mem _ _ nd0.FullPath i hn1 (hp1.symm.subset hmem),
        par_of_mem _ _ nd0.FullPath i hn2 (hp2.symm.subset hmem)]
    · rw [hch1, hch2]
      exact ((hp1.trans hp2.symm).filter _).map _
    · rw [hch1]
      exact kids_nodup _ _ _ hn1
    · rw [hch2]
      exact kids_nodup _ _ _ hn2

/-- Witness of C16: the scenario, with the map enumerated backwards and
forwards. -/
theorem order_independence_witness :
    (∃! p, p ∈ scenarioEntries.map Prod.fst ∧ Dir p ∉ scenarioEntries.map Prod.fst) ∧
    ((∃ r, (NewTree scenarioOS "/root").result = some r ∧
      (NewTree { scenarioOS with range := id } "/root").result = some r) ∧
    (NewTree scenarioOS "/root").heap.length =
      (NewTree { scenarioOS with range := id } "/root").heap.length ∧
    (∀ (i : Nat) (nd1 : Node), (NewTree scenarioOS "/root").heap[i]? = some nd1 →
      ∃ nd2, (NewTree { scenarioOS with range := id } "/root").heap[i]? = some nd2 ∧
        nd1.FullPath = nd2.FullPath ∧ nd1.Info = nd2.Info ∧
        nd1.Parent = nd2.Parent ∧ nd1.Children.Perm nd2.Children ∧
        nd1.Children.Nodup ∧ nd2.Children.Nodup)) :=
  have hs : ∃! p, p ∈ scenarioEntries.map Prod.fst ∧ Dir p ∉ scenarioEntries.map Prod.fst := by
    refine ⟨"/root", by decide, ?_⟩
    intro q hq
    have hq1 := hq.1
    simp only [scenarioEntries, List.map_cons, List.map_nil, List.mem_cons, List.mem_singleton,
      List.not_mem_nil, or_false] at hq1
    rcases hq1 with rfl | rfl | rfl | rfl
    · rfl
    · exact absurd hq.2 (by decide)
    · exact absurd hq.2 (by decide)
    · exact absurd hq.2 (by decide)
  ⟨hs, order_independence scenarioOS { scenarioOS with range := id } "/root" "/root"
    scenarioEntries rfl rfl rfl rfl (by decide) (fun m => List.reverse_perm m)
    (fun m => List.Perm.refl m) hs⟩

/-- C17 (multi-root input): on a walk that fails nowhere and reports each path
once, the node `NewTree` returns is the node of the last entry, in the order of
the link loop, whose parent directory is not a reported path (the nil node if
there is none); every node whose parent directory is not reported keeps an
absent `Parent`; and none of them other than the returned one is reached from
the returned node along `Children` edges. -/
theorem multi_root (os : OS) (root R : String) (es : List (String × OsFileInfo))
    (hAbs : os.Abs root = .ok R) (hWalk : os.Walk R = visits es)
    (hnd : (es.map Prod.fst).Nodup) (hrange : ∀ m, (os.range m).Perm m) :
    (NewTree os root).result =
      (((os.range (keysFrom 0 (es.map Prod.fst))).filter
        (fun e => decide (Dir e.1 ∉ es.map Prod.fst))).getLast?).map Prod.snd ∧
    (∀ (i : Nat) (e : String × OsFileInfo), es[i]? = some e → Dir e.1 ∉ es.map Prod.fst →
      ∃ nd, (NewTree os root).heap[i]? = some nd ∧ nd.FullPath = e.1 ∧ nd.Parent = none) ∧
    (∀ r, (NewTree os root).result = some r →
      ∀ (i : Nat) (e : String × OsFileInfo), es[i]? = some e → Dir e.1 ∉ es.map Prod.fst →
        i ≠ r → ¬ Reach (NewTree os root).heap r i) := by
  have hinv := walkInv_explicit es hnd
  have hperm := hrange (keysFrom 0 (es.map Prod.fst))
  have hn := nodup_snd_of_perm hinv hperm
  have hget : ∀ (i : Nat) (e : String × OsFileInfo), es[i]? = some e →
      (es.map newNode)[i]? = some (newNode e) := by
    intro i e he
    rw [List.getElem?_map, he]
    rfl
  rw [NewTree_explicit os root R es hAbs hWalk hnd]
  simp only
  refine ⟨?_, ?_, ?_⟩
  · rw [linkLoop_result]
    have hf : List.filter
        (fun e => decide (mapGet (keysFrom 0 (es.map Prod.fst)) (Dir e.1) = none))
        (os.range (keysFrom 0 (es.map Prod.fst))) =
        List.filter (fun e => decide (Dir e.1 ∉ es.map Prod.fst))
        (os.range (keysFrom 0 (es.map Prod.fst))) := by
      apply List.filter_congr
      intro e _
      exact decide_eq_decide.2 (mapGet_keysFrom_none _ _)
    rw [hf]
    cases (List.filter (fun e => decide (Dir e.1 ∉ es.map Prod.fst))
        (os.range (keysFrom 0 (es.map Prod.fst)))).getLast? <;> rfl
  · intro i e he hdir
    obtain ⟨nd, hnd1⟩ := @linked_node_of_heap
      { heap := es.map newNode, parents := keysFrom 0 (es.map Prod.fst) }
      (os.range (keysFrom 0 (es.map Prod.fst))) none i (newNode e) (hget i e he)
    obtain ⟨nd0, hn0, hpath, -, -, hpar⟩ := linked_node hinv _ none i nd hnd1
    simp only at hn0
    rw [hget i e he] at hn0
    cases hn0
    have hmem := (explicit_full es i _ (hget i e he)).1
    refine ⟨nd, hnd1, hpath, ?_⟩
    rw [hpar, par_of_mem _ _ e.1 i hn (hperm.symm.subset hmem)]
    exact (mapGet_keysFrom_none _ _).2 hdir
  · intro r _ i e he hdir hne hreach
    rcases Relation.ReflTransGen.cases_tail hreach with heq | ⟨m, -, md, hmd, hc⟩
    · exact hne heq
    · obtain ⟨-, -, -, -, hch, -⟩ := linked_node hinv _ none m md hmd
      rw [hch] at hc
      obtain ⟨k, hk, hg⟩ := (mem_kids _ _ _ _).1 hc
      have hmem := (explicit_full es i _ (hget i e he)).1
      have hke : k = e.1 := key_unique hinv (hperm.subset hk) hmem
      rw [hke, (mapGet_keysFrom_none _ _).2 hdir] at hg
      cases hg

/-- Witness of C17: two entries without reported parent directory; the link
loop visits `/x/a` and then `/y/b`, and the node of `/y/b` is returned. -/
theorem multi_root_witness :
    (twoRootEntries.map Prod.fst).Nodup ∧
    Dir "/x/a" ∉ twoRootEntries.map Prod.fst ∧ Dir "/y/b" ∉ twoRootEntries.map Prod.fst ∧
    (NewTree twoRootOS "/x").result = some 1 ∧
    ((NewTree twoRootOS "/x").result =
      (((twoRootOS.range (keysFrom 0 (twoRootEntries.map Prod.fst))).filter
        (fun e => decide (Dir e.1 ∉ twoRootEntries.map Prod.fst))).getLast?).map Prod.snd ∧
    (∀ (i : Nat) (e : String × OsFileInfo), twoRootEntries[i]? = some e →
      Dir e.1 ∉ twoRootEntries.map Prod.fst →
      ∃ nd, (NewTree twoRootOS "/x").heap[i]? = some nd ∧ nd.FullPath = e.1 ∧
        nd.Parent = none) ∧
    (∀ r, (NewTree twoRootOS "/x").result = some r →
      ∀ (i : Nat) (e : String × OsFileInfo), twoRootEntries[i]? = some e →
        Dir e.1 ∉ twoRootEntries.map Prod.fst →
        i ≠ r → ¬ Reach (NewTree twoRootOS "/x").heap r i)) :=
  ⟨by decide, by decide, by decide, by decide,
    multi_root twoRootOS "/x" "/x" twoRootEntries rfl rfl (by decide)
      (fun m => List.Perm.refl m)⟩

end DirectoryTree

namespace DirectoryTree

/-! ## The scenario, and the query as a state transformer -/

/-- The scenario, for every order in which the four entries of the map can be
enumerated. -/
theorem scenario_all_orders :
    ∀ L ∈ (keysFrom 0 (scenarioEntries.map Prod.fst)).permutations',
      (L.foldl (linkStep (keysFrom 0 (scenarioEntries.map Prod.fst)))
          (scenarioEntries.map newNode, none)).2 = some 0 ∧
      (L.foldl (linkStep (keysFrom 0 (scenarioEntries.map Prod.fst)))
          (scenarioEntries.map newNode, none)).1.map Node.FullPath =
        ["/root", "/root/a.txt", "/root/sub", "/root/sub/b.go"] ∧
      (((L.foldl (linkStep (keysFrom 0 (scenarioEntries.map Prod.fst)))
          (scenarioEntries.map newNode, none)).1[0]?).map Node.Children = some [1, 2] ∨
       ((L.foldl (linkStep (keysFrom 0 (scenarioEntries.map Prod.fst)))
          (scenarioEntries.map newNode, none)).1[0]?).map Node.Children = some [2, 1]) ∧
      ((L.foldl (linkStep (keysFrom 0 (scenarioEntries.map Prod.fst)))
          (scenarioEntries.map newNode, none)).1[2]?).map Node.Children = some [3] ∧
      GetFiles (L.foldl (linkStep (keysFrom 0 (scenarioEntries.map Prod.fst)))
          (scenarioEntries.map newNode, none)).1 3 0 ".go" = some [3] ∧
      (GetFiles (L.foldl (linkStep (keysFrom 0 (scenarioEntries.map Prod.fst)))
          (scenarioEntries.map newNode, none)).1 3 0 "" = some [1, 3] ∨
       GetFiles (L.foldl (linkStep (keysFrom 0 (scenarioEntries.map Prod.fst)))
          (scenarioEntries.map newNode, none)).1 3 0 "" = some [3, 1]) := by
  decide

/-- C14 (scenario): for the walk `/root`, `/root/a.txt`, `/root/sub` (a
directory), `/root/sub/b.go`, in every order of the link loop, `NewTree("/root")`
returns without error the node of `/root` (node 0); its children are the nodes
of `a.txt` and `sub` (nodes 1 and 2), each once; the children of `sub` are the
node of `b.go` (node 3) alone; `GetFiles(".go")` on the root returns `[b.go]`;
`GetFiles("")` on the root returns `a.txt` and `b.go`, each once. -/
theorem scenario_correct (os : OS) (hAbs : os.Abs "/root" = .ok "/root")
    (hWalk : os.Walk "/root" = visits scenarioEntries)
    (hrange : ∀ m, (os.range m).Perm m) :
    (NewTree os "/root").err = none ∧ (NewTree os "/root").result = some 0 ∧
    (NewTree os "/root").heap.map Node.FullPath =
      ["/root", "/root/a.txt", "/root/sub", "/root/sub/b.go"] ∧
    (((NewTree os "/root").heap[0]?).map Node.Children = some [1, 2] ∨
     ((NewTree os "/root").heap[0]?).map Node.Children = some [2, 1]) ∧
    ((NewTree os "/root").heap[2]?).map Node.Children = some [3] ∧
    (∀ fuel, 3 ≤ fuel → GetFiles (NewTree os "/root").heap fuel 0 ".go" = some [3]) ∧
    (∀ fuel, 3 ≤ fuel →
      GetFiles (NewTree os "/root").heap fuel 0 "" = some [1, 3] ∨
      GetFiles (NewTree os "/root").heap fuel 0 "" = some [3, 1]) := by
  have hmem : os.range (keysFrom 0 (scenarioEntries.map Prod.fst)) ∈
      (keysFrom 0 (scenarioEntries.map Prod.fst)).permutations' :=
    List.mem_permutations'.2 (hrange _)
  obtain ⟨h1, h2, h3, h4, h5, h6⟩ := scenario_all_orders _ hmem
  rw [NewTree_explicit os "/root" "/root" scenarioEntries hAbs hWalk (by decide)]
  refine ⟨rfl, h1, h2, h3, h4, ?_, ?_⟩
  · intro fuel hfuel
    exact getFiles_mono_le _ _ _ _ 3 fuel hfuel h5
  · intro fuel hfuel
    rcases h6 with h6 | h6
    · exact Or.inl (getFiles_mono_le _ _ _ _ 3 fuel hfuel h6)
    · exact Or.inr (getFiles_mono_le _ _ _ _ 3 fuel hfuel h6)

/-- Witness of C14: the scenario with the map enumerated backwards. -/
theorem scenario_correct_witness :
    scenarioOS.Abs "/root" = .ok "/root" ∧
    scenarioOS.Walk "/root" = visits scenarioEntries ∧
    (∀ m, (scenarioOS.range m).Perm m) ∧
    ((NewTree scenarioOS "/root").err = none ∧ (NewTree scenarioOS "/root").result = some 0 ∧
    (NewTree scenarioOS "/root").heap.map Node.FullPath =
      ["/root", "/root/a.txt", "/root/sub", "/root/sub/b.go"] ∧
    (((NewTree scenarioOS "/root").heap[0]?).map Node.Children = some [1, 2] ∨
     ((NewTree scenarioOS "/root").heap[0]?).map Node.Children = some [2, 1]) ∧
    ((NewTree scenarioOS "/root").heap[2]?).map Node.Children = some [3] ∧
    (∀ fuel, 3 ≤ fuel → GetFiles (NewTree scenarioOS "/root").heap fuel 0 ".go" = some [3]) ∧
    (∀ fuel, 3 ≤ fuel →
      GetFiles (NewTree scenarioOS "/root").heap fuel 0 "" = some [1, 3] ∨
      GetFiles (NewTree scenarioOS "/root").heap fuel 0 "" = some [3, 1])) :=
  ⟨rfl, rfl, fun m => List.reverse_perm m,
    scenario_correct scenarioOS rfl rfl (fun m => List.reverse_perm m)⟩

theorem getFilesLoopSt_eq (heap : List Node)
    (recurSt : List Node → Nat → Option (List Node × List Nat))
    (recur : Nat → Option (List Nat)) (ext : String)
    (hrec : ∀ c, recurSt heap c = (recur c).map (fun r => (heap, r))) :
    ∀ (cs files : List Nat), getFilesLoopSt recurSt ext heap cs files =
      (getFilesLoop heap recur ext cs files).map (fun r => (heap, r)) := by
  intro cs
  induction cs with
  | nil => intro files; simp [getFilesLoopSt, getFilesLoop]
  | cons c rest ih =>
    intro files
    unfold getFilesLoopSt getFilesLoop
    cases hc : heap[c]? with
    | none => simp
    | some cd =>
      simp only
      cases hdir : cd.Info.IsDir with
      | true =>
        simp only [if_true, hrec c]
        cases recur c with
        | none => simp
        | some sub => simp only [Option.map_some']; exact ih _
      | false =>
        simp only [Bool.false_eq_true, if_false]
        by_cases hext : ext = "" ∨ ext = cd.Info.Ext
        · simp only [hext, if_true]
          exact ih _
        · simp only [hext, if_false]
          exact ih _

/-- The state transformer returns the heap it was given, with the result of
`GetFiles`. -/
theorem getFilesSt_eq (ext : String) :
    ∀ (fuel : Nat) (heap : List Node) (n : Nat),
      GetFilesSt fuel heap n ext = (GetFiles heap fuel n ext).map (fun r => (heap, r)) := by
  intro fuel
  induction fuel with
  | zero => intro heap n; simp [GetFilesSt, GetFiles]
  | succ fuel ih =>
    intro heap n
    unfold GetFilesSt GetFiles
    cases hn : heap[n]? with
    | none => simp
    | some nd =>
      simp only
      exact getFilesLoopSt_eq heap _ _ ext (fun c => ih heap c) _ _

/-- C15 (idempotence of the query): a call of `GetFiles` that returns leaves
the heap as it was, every field of every node included; so on a heap with valid
child pointers and no cycle, two calls in a row of `n.GetFiles(ext)`, the
second on the heap the first has left, both return, and return the same
sequence, in the same order. -/
theorem idempotence (heap : List Node) (rank : Nat → Nat)
    (hvalid : ∀ m c, IsChild heap m c → c < heap.length)
    (hrank : ∀ m c, IsChild heap m c → rank c < rank m)
    (n : Nat) (nd : Node) (hn : heap[n]? = some nd) (ext : String)
    (fuel1 fuel2 : Nat) (h1 : rank n < fuel1) (h2 : rank n < fuel2) :
    (∀ (fuel : Nat) (heap1 : List Node) (r : List Nat),
      GetFilesSt fuel heap n ext = some (heap1, r) → heap1 = heap) ∧
    ∃ heap1 r, GetFilesSt fuel1 heap n ext = some (heap1, r) ∧ heap1 = heap ∧
      GetFilesSt fuel2 heap1 n ext = some (heap1, r) := by
  constructor
  · intro fuel heap1 r h
    rw [getFilesSt_eq] at h
    cases hg : GetFiles heap fuel n ext with
    | none => rw [hg] at h; cases h
    | some r1 =>
      rw [hg] at h
      simp only [Option.map_some', Option.some.injEq, Prod.mk.injEq] at h
      exact h.1.symm
  · obtain ⟨r, hr⟩ := getFiles_isSome hvalid hrank ext fuel1 n nd hn h1
    obtain ⟨r2, hr2⟩ := getFiles_isSome hvalid hrank ext fuel2 n nd hn h2
    have heq : r2 = r := by
      rcases Nat.le_total fuel1 fuel2 with hle | hle
      · have := getFiles_mono_le heap ext n r fuel1 fuel2 hle hr
        rw [hr2] at this
        exact Option.some.inj this
      · have := getFiles_mono_le heap ext n r2 fuel2 fuel1 hle hr2
        rw [hr] at this
        exact (Option.some.inj this).symm
    subst heq
    exact ⟨heap, r2, by rw [getFilesSt_eq, hr]; rfl, rfl, by rw [getFilesSt_eq, hr2]; rfl⟩

/-- Witness of C15: two calls on the root of the scenario, filter `.go`. -/
theorem idempotence_witness :
    (∀ m c, IsChild scenarioHeap m c → c < scenarioHeap.length) ∧
    (∀ m c, IsChild scenarioHeap m c → scenarioRank c < scenarioRank m) ∧
    scenarioHeap[0]? =
      some (Node.mk "/root" (fileInfoFromInterface (dirEntry "root")) [2, 1] none) ∧
    scenarioRank 0 < 3 ∧ scenarioRank 0 < 4 ∧
    ((∀ (fuel : Nat) (heap1 : List Node) (r : List Nat),
      GetFilesSt fuel scenarioHeap 0 ".go" = some (heap1, r) → heap1 = scenarioHeap) ∧
    ∃ heap1 r, GetFilesSt 3 scenarioHeap 0 ".go" = some (heap1, r) ∧ heap1 = scenarioHeap ∧
      GetFilesSt 4 heap1 0 ".go" = some (heap1, r)) :=
  ⟨scenario_isTreeHeap.valid, scenario_isTreeHeap.ranked, by decide, by decide, by decide,
    idempotence scenarioHeap scenarioRank scenario_isTreeHeap.valid scenario_isTreeHeap.ranked 0
      (Node.mk "/root" (fileInfoFromInterface (dirEntry "root")) [2, 1] none) (by decide) ".go"
      3 4 (by decide) (by decide)⟩

end DirectoryTree
